import Mathlib

/-!
Shallow embedding of `src/double_linked_list.rs`: a doubly linked list whose
nodes live behind `Rc<RefCell<_>>` pointers.  We model the collection of
`Rc` cells as a heap (a list of optional node records indexed by allocation
order); `Option Nat` plays the role of `LinkNode<T> = Option<Rc<RefCell<Node<T>>>>`.
A freed cell is `none`.  Every operation of the Rust impl block is translated
cell by cell; traversals (which follow `next` pointers and in Rust simply run
until `None`) take a fuel argument, always instantiated with the stored
`length`, which suffices on every well-formed state.
-/

/-- Rust `struct Node<T> { value, prev, next }`; the link fields hold heap ids. -/
structure Node (T : Type) where
  value : T
  prev : Option Nat
  next : Option Nat
deriving Repr, DecidableEq

/-- The collection of live `Rc<RefCell<Node<T>>>` cells, indexed by allocation id. -/
abbrev Heap (T : Type) := List (Option (Node T))

/-- Dereference a heap id (`none` when the cell was never allocated or was freed). -/
def heapGet {T : Type} (h : Heap T) (i : Nat) : Option (Node T) :=
  h.getD i none

/-- Mutate the node stored in cell `i` (no-op on a dead cell, which never
happens on the states we reason about). -/
def updCell {T : Type} (h : Heap T) (i : Nat) (f : Node T → Node T) : Heap T :=
  h.set i ((heapGet h i).map f)

/-- `node.borrow_mut().prev = p`. -/
def setPrev {T : Type} (h : Heap T) (i : Nat) (p : Option Nat) : Heap T :=
  updCell h i (fun n => { n with prev := p })

/-- `node.borrow_mut().next = q`. -/
def setNext {T : Type} (h : Heap T) (i : Nat) (q : Option Nat) : Heap T :=
  updCell h i (fun n => { n with next := q })

/-- Rust `struct DoubleLinkedList<T> { head, tail, length }`, together with the
heap of cells the `Rc` pointers reference. -/
structure DoubleLinkedList (T : Type) where
  heap : Heap T
  head : Option Nat
  tail : Option Nat
  length : Nat

namespace DoubleLinkedList

/-- `DoubleLinkedList::new()`. -/
def new (T : Type) : DoubleLinkedList T :=
  { heap := [], head := none, tail := none, length := 0 }

/-- `is_empty`. -/
def isEmpty {T : Type} (l : DoubleLinkedList T) : Bool :=
  l.length = 0

/-- `add(value)`: push a fresh node at the front.  The fresh cell id is the
current heap size. -/
def add {T : Type} (l : DoubleLinkedList T) (v : T) : DoubleLinkedList T :=
  let j := l.heap.length
  match l.head with
  | some oldHead =>
      { heap := setPrev l.heap oldHead (some j) ++ [some ⟨v, none, some oldHead⟩],
        head := some j, tail := l.tail, length := l.length + 1 }
  | none =>
      { heap := l.heap ++ [some ⟨v, none, none⟩],
        head := some j, tail := some j, length := l.length + 1 }

/-- `append(value)`: push a fresh node at the back. -/
def append {T : Type} (l : DoubleLinkedList T) (v : T) : DoubleLinkedList T :=
  let j := l.heap.length
  match l.tail with
  | some oldTail =>
      { heap := setNext l.heap oldTail (some j) ++ [some ⟨v, some oldTail, none⟩],
        head := l.head, tail := some j, length := l.length + 1 }
  | none =>
      { heap := l.heap ++ [some ⟨v, none, none⟩],
        head := some j, tail := some j, length := l.length + 1 }

/-- `self.traverse(|_| true).nth(k)`: follow `next` pointers `k` steps from
`cur` and return the node reached (with its id). -/
def nthNode {T : Type} (h : Heap T) : Option Nat → Nat → Option (Nat × Node T)
  | none, _ => none
  | some i, 0 => (heapGet h i).map (fun n => (i, n))
  | some i, k + 1 =>
      match heapGet h i with
      | none => none
      | some n => nthNode h n.next k

/-- `insert(value, index)`.  Returns `none` exactly when the Rust code would
panic on the `.expect("index out of range")` (or dereference a dead cell,
which on well-formed states is equally impossible). -/
def insert {T : Type} (l : DoubleLinkedList T) (v : T) (index : Nat) :
    Option (DoubleLinkedList T) :=
  if index = 0 then some (l.add v)
  else if l.length ≤ index then some (l.append v)
  else
    match nthNode l.heap l.head index with
    | none => none
    | some (oldId, oldNode) =>
        let j := l.heap.length
        let oldPrev := oldNode.prev
        let h1 : Heap T := l.heap ++ [some ⟨v, oldPrev, some oldId⟩]
        let h2 := setPrev h1 oldId (some j)
        let h3 := match oldPrev with
          | some p => setNext h2 p (some j)
          | none => h2
        some { heap := h3, head := l.head, tail := l.tail, length := l.length + 1 }

/-- `self.traverse(|node| node.borrow().value == value).next()`: first node
(in head-to-tail order) whose value equals `v`. -/
def findNode {T : Type} [DecidableEq T] (h : Heap T) (v : T) :
    Option Nat → Nat → Option (Nat × Node T)
  | none, _ => none
  | some _, 0 => none
  | some i, fuel + 1 =>
      match heapGet h i with
      | none => none
      | some n => if n.value = v then some (i, n) else findNode h v n.next fuel

/-- `search(value)`. -/
def search {T : Type} [DecidableEq T] (l : DoubleLinkedList T) (v : T) : Bool :=
  (findNode l.heap v l.head l.length).isSome

/-- The pointer surgery `remove` performs once it has found node `i` holding
record `n`: relink neighbours (or `head`/`tail`) around it and decrement
`length`.  This is the state at the moment `Rc::try_unwrap(node)` runs. -/
def unlink {T : Type} (l : DoubleLinkedList T) (n : Node T) : DoubleLinkedList T :=
  let h1 := match n.prev with
    | some p => setNext l.heap p n.next
    | none => l.heap
  let head1 := match n.prev with
    | some _ => l.head
    | none => n.next
  let h2 := match n.next with
    | some q => setPrev h1 q n.prev
    | none => h1
  let tail2 := match n.next with
    | some _ => l.tail
    | none => n.prev
  { heap := h2, head := head1, tail := tail2, length := l.length - 1 }

/-- Dropping the unwrapped node: its cell dies. -/
def free {T : Type} (l : DoubleLinkedList T) (i : Nat) : DoubleLinkedList T :=
  { l with heap := l.heap.set i none }

/-- `remove(value)`: unlink the first matching node and give back its value. -/
def remove {T : Type} [DecidableEq T] (l : DoubleLinkedList T) (v : T) :
    Option T × DoubleLinkedList T :=
  match findNode l.heap v l.head l.length with
  | none => (none, l)
  | some (i, n) => (some n.value, (l.unlink n).free i)

/-- `self.traverse(|_| true)` collecting values: follow `next` from `cur`. -/
def traverseVals {T : Type} (h : Heap T) : Option Nat → Nat → List T
  | none, _ => []
  | some _, 0 => []
  | some i, fuel + 1 =>
      match heapGet h i with
      | none => []
      | some n => n.value :: traverseVals h n.next fuel

/-- The sequence of values a full forward traversal of the list yields. -/
def toList {T : Type} (l : DoubleLinkedList T) : List T :=
  traverseVals l.heap l.head l.length

/-- Backward traversal: follow `prev` pointers from `cur`. -/
def traverseBack {T : Type} (h : Heap T) : Option Nat → Nat → List T
  | none, _ => []
  | some _, 0 => []
  | some i, fuel + 1 =>
      match heapGet h i with
      | none => []
      | some n => n.value :: traverseBack h n.prev fuel

/-- Some live `Rc` in the structure still points at cell `i`: either `head` or
`tail` of the list, or a `prev`/`next` field of some live node.  This is what
would make `Rc::try_unwrap` on node `i` fail once the local clones are gone. -/
def refsTo {T : Type} (l : DoubleLinkedList T) (i : Nat) : Prop :=
  l.head = some i ∨ l.tail = some i ∨
    ∃ j n, heapGet l.heap j = some n ∧ (n.prev = some i ∨ n.next = some i)

end DoubleLinkedList

/-- The public mutating API, as an instruction alphabet. -/
inductive Op (T : Type) where
  | add (v : T)
  | append (v : T)
  | insert (v : T) (index : Nat)
  | remove (v : T)

/-- Run one public operation.  `insert`'s impossible panic branch falls back to
the unchanged list so that runs stay total. -/
def step {T : Type} [DecidableEq T] (l : DoubleLinkedList T) : Op T → DoubleLinkedList T
  | .add v => l.add v
  | .append v => l.append v
  | .insert v i => (l.insert v i).getD l
  | .remove v => (l.remove v).2

/-- Run a program of public operations from `new()`. -/
def runOps {T : Type} [DecidableEq T] (ops : List (Op T)) : DoubleLinkedList T :=
  ops.foldl step (DoubleLinkedList.new T)

/-- A list state the public API can produce. -/
def Reachable {T : Type} [DecidableEq T] (l : DoubleLinkedList T) : Prop :=
  ∃ ops : List (Op T), runOps ops = l

/-- `chainSeg h p cur xs q r`: starting at pointer `cur` whose expected back
pointer is `p`, the cells listed in `xs` (ids paired with their values) form a
doubly linked segment, after which the running back pointer is `q` and the
forward pointer is `r`. -/
def chainSeg {T : Type} (h : Heap T) :
    Option Nat → Option Nat → List (Nat × T) → Option Nat → Option Nat → Prop
  | p, cur, [], q, r => q = p ∧ r = cur
  | p, cur, (i, v) :: xs, q, r =>
      cur = some i ∧
      match heapGet h i with
      | none => False
      | some n => n.value = v ∧ n.prev = p ∧ chainSeg h (some i) n.next xs q r

/-- Well-formedness of a list state, witnessed by the id/value sequence `xs` of
its nodes: head-to-tail the cells chain from `head` down to `tail` and exhaust,
the stored `length` is the number of nodes, ids never repeat, and the live
cells of the heap are exactly the chained ones. -/
structure WF {T : Type} (l : DoubleLinkedList T) (xs : List (Nat × T)) : Prop where
  seg : chainSeg l.heap none l.head xs l.tail none
  len : l.length = xs.length
  nodup : (xs.map Prod.fst).Nodup
  dom : ∀ i, (heapGet l.heap i).isSome ↔ i ∈ xs.map Prod.fst

/-! ### Heap access lemmas -/

theorem heapGet_eq_getElem {T : Type} (h : Heap T) (i : Nat) :
    heapGet h i = (h[i]?).getD none := by
  simp [heapGet, List.getD_eq_getElem?_getD]

theorem heapGet_lt_of_isSome {T : Type} {h : Heap T} {i : Nat}
    (hs : (heapGet h i).isSome) : i < h.length := by
  by_contra hlt
  rw [heapGet_eq_getElem, List.getElem?_eq_none (Nat.le_of_not_lt hlt)] at hs
  simp at hs

theorem heapGet_append_self {T : Type} (h : Heap T) (c : Option (Node T)) :
    heapGet (h ++ [c]) h.length = c := by
  rw [heapGet_eq_getElem, List.getElem?_concat_length]
  rfl

theorem heapGet_append_ne {T : Type} (h : Heap T) (c : Option (Node T)) {i : Nat}
    (hi : i ≠ h.length) : heapGet (h ++ [c]) i = heapGet h i := by
  rw [heapGet_eq_getElem, heapGet_eq_getElem]
  rcases Nat.lt_or_ge i h.length with hlt | hge
  · rw [List.getElem?_append_left hlt]
  · have h1 : h.length < i := Nat.lt_of_le_of_ne hge (Ne.symm hi)
    rw [List.getElem?_append_right hge, List.getElem?_eq_none (l := h) (Nat.le_of_lt h1),
      List.getElem?_eq_none]
    simp
    omega

theorem length_updCell {T : Type} (h : Heap T) (i : Nat) (f : Node T → Node T) :
    (updCell h i f).length = h.length := by
  simp [updCell]

theorem heapGet_updCell_ne {T : Type} (h : Heap T) (i : Nat) (f : Node T → Node T)
    {j : Nat} (hj : j ≠ i) : heapGet (updCell h i f) j = heapGet h j := by
  rw [updCell, heapGet_eq_getElem, List.getElem?_set_ne (Ne.symm hj), ← heapGet_eq_getElem]

theorem heapGet_updCell_self {T : Type} {h : Heap T} {i : Nat} (f : Node T → Node T)
    {n : Node T} (hn : heapGet h i = some n) :
    heapGet (updCell h i f) i = some (f n) := by
  have hlt : i < h.length := heapGet_lt_of_isSome (by simp [hn])
  rw [updCell, heapGet_eq_getElem, List.getElem?_set_self hlt, hn]
  rfl

theorem heapGet_set_none_ne {T : Type} (h : Heap T) (i : Nat) {j : Nat} (hj : j ≠ i) :
    heapGet (h.set i none) j = heapGet h j := by
  rw [heapGet_eq_getElem, List.getElem?_set_ne (Ne.symm hj), ← heapGet_eq_getElem]

theorem heapGet_set_none_self {T : Type} (h : Heap T) (i : Nat) :
    heapGet (h.set i none) i = none := by
  rw [heapGet_eq_getElem, List.getElem?_set]
  split
  · split
    · rfl
    · rfl
  · exact absurd rfl (by assumption)

theorem isSome_heapGet_updCell {T : Type} (h : Heap T) (i : Nat) (f : Node T → Node T)
    (j : Nat) : (heapGet (updCell h i f) j).isSome = (heapGet h j).isSome := by
  rcases Decidable.em (j = i) with rfl | hne
  · rcases hcell : heapGet h j with _ | n
    · rw [updCell, hcell]
      show (heapGet (h.set j none) j).isSome = none.isSome
      rw [heapGet_set_none_self]
    · rw [heapGet_updCell_self f hcell]
      rfl
  · rw [heapGet_updCell_ne h i f hne]

/-! ### chainSeg basic lemmas -/

theorem chainSeg_nil {T : Type} (h : Heap T) (p cur q r : Option Nat) :
    chainSeg h p cur [] q r ↔ (q = p ∧ r = cur) := Iff.rfl

theorem chainSeg_cons {T : Type} (h : Heap T) (p cur q r : Option Nat) (i : Nat) (v : T)
    (xs : List (Nat × T)) :
    chainSeg h p cur ((i, v) :: xs) q r ↔
      cur = some i ∧ ∃ n, heapGet h i = some n ∧ n.value = v ∧ n.prev = p ∧
        chainSeg h (some i) n.next xs q r := by
  rcases hcell : heapGet h i with _ | n
  · simp [chainSeg, hcell]
  · simp [chainSeg, hcell]

theorem chainSeg_frame {T : Type} {h h' : Heap T} {xs : List (Nat × T)} :
    ∀ {p cur q r}, (∀ iv ∈ xs, heapGet h' iv.1 = heapGet h iv.1) →
      chainSeg h p cur xs q r → chainSeg h' p cur xs q r := by
  induction xs with
  | nil => intro p cur q r _ hs; exact hs
  | cons iv xs ih =>
      obtain ⟨i, v⟩ := iv
      intro p cur q r hagree hs
      rw [chainSeg_cons] at hs ⊢
      obtain ⟨hc, n, hn, hv, hp, hrest⟩ := hs
      refine ⟨hc, n, ?_, hv, hp, ?_⟩
      · rw [hagree (i, v) (List.mem_cons_self _ _), hn]
      · exact ih (fun jv hj => hagree jv (List.mem_cons_of_mem _ hj)) hrest

theorem chainSeg_append {T : Type} {h : Heap T} {xs ys : List (Nat × T)} :
    ∀ {p cur q r s t}, chainSeg h p cur xs q r → chainSeg h q r ys s t →
      chainSeg h p cur (xs ++ ys) s t := by
  induction xs with
  | nil =>
      rintro p cur q r s t ⟨rfl, rfl⟩ h2
      exact h2
  | cons iv xs ih =>
      obtain ⟨i, v⟩ := iv
      intro p cur q r s t h1 h2
      rw [chainSeg_cons] at h1
      obtain ⟨hc, n, hn, hv, hp, hrest⟩ := h1
      rw [List.cons_append, chainSeg_cons]
      exact ⟨hc, n, hn, hv, hp, ih hrest h2⟩

theorem chainSeg_split {T : Type} {h : Heap T} {xs ys : List (Nat × T)} :
    ∀ {p cur s t}, chainSeg h p cur (xs ++ ys) s t →
      ∃ q r, chainSeg h p cur xs q r ∧ chainSeg h q r ys s t := by
  induction xs with
  | nil => intro p cur s t hs; exact ⟨p, cur, ⟨rfl, rfl⟩, hs⟩
  | cons iv xs ih =>
      obtain ⟨i, v⟩ := iv
      intro p cur s t hs
      rw [List.cons_append, chainSeg_cons] at hs
      obtain ⟨hc, n, hn, hv, hp, hrest⟩ := hs
      obtain ⟨q, r, h1, h2⟩ := ih hrest
      refine ⟨q, r, ?_, h2⟩
      rw [chainSeg_cons]
      exact ⟨hc, n, hn, hv, hp, h1⟩

theorem chainSeg_concat_last {T : Type} {h : Heap T} {p cur q r : Option Nat}
    {ys : List (Nat × T)} {iv : Nat × T}
    (hs : chainSeg h p cur (ys ++ [iv]) q r) : q = some iv.1 := by
  obtain ⟨q1, r1, h1, h2⟩ := chainSeg_split hs
  obtain ⟨i, v⟩ := iv
  rw [chainSeg_cons] at h2
  obtain ⟨hc, n, hn, hv, hp, hq, hr⟩ := h2
  exact hq

theorem chainSeg_head_some {T : Type} {h : Heap T} {p cur q r : Option Nat}
    {i : Nat} {v : T} {xs : List (Nat × T)}
    (hs : chainSeg h p cur ((i, v) :: xs) q r) : cur = some i := by
  rw [chainSeg_cons] at hs
  exact hs.1

theorem chainSeg_nil_of_cur_none {T : Type} {h : Heap T} {p q r : Option Nat}
    {xs : List (Nat × T)} (hs : chainSeg h p none xs q r) : xs = [] := by
  cases xs with
  | nil => rfl
  | cons iv xs =>
      obtain ⟨i, v⟩ := iv
      exact absurd (chainSeg_head_some hs) (by simp)

theorem chainSeg_mem_isSome {T : Type} {h : Heap T} {xs : List (Nat × T)} :
    ∀ {p cur q r} {iv}, iv ∈ xs → chainSeg h p cur xs q r →
      (heapGet h iv.1).isSome := by
  induction xs with
  | nil => intro p cur q r iv hm; cases hm
  | cons jw xs ih =>
      obtain ⟨j, w⟩ := jw
      intro p cur q r iv hm hs
      rw [chainSeg_cons] at hs
      obtain ⟨hc, n, hn, hv, hp, hrest⟩ := hs
      rcases List.mem_cons.mp hm with rfl | hm'
      · rw [hn]; rfl
      · exact ih hm' hrest

theorem chainSeg_closed {T : Type} {h : Heap T} {xs : List (Nat × T)} :
    ∀ {p cur q r}, chainSeg h p cur xs q r →
      ∀ iv ∈ xs, ∀ n : Node T, heapGet h iv.1 = some n →
        (n.next = r ∨ ∃ k, n.next = some k ∧ k ∈ xs.map Prod.fst) ∧
        (n.prev = p ∨ ∃ k, n.prev = some k ∧ k ∈ xs.map Prod.fst) := by
  induction xs with
  | nil => intro p cur q r _ iv hm; cases hm
  | cons jw xs ih =>
      obtain ⟨j, w⟩ := jw
      intro p cur q r hs iv hm n hn
      rw [chainSeg_cons] at hs
      obtain ⟨hc, m, hm', hv, hp, hrest⟩ := hs
      rcases List.mem_cons.mp hm with rfl | hmem
      · rw [hm'] at hn
        cases hn
        constructor
        · cases xs with
          | nil =>
              obtain ⟨hq, hr⟩ := hrest
              exact Or.inl hr.symm
          | cons kv xs' =>
              have := chainSeg_head_some hrest
              exact Or.inr ⟨kv.1, this, by simp⟩
        · exact Or.inl hp
      · obtain ⟨h1, h2⟩ := ih hrest iv hmem n hn
        constructor
        · rcases h1 with h1 | ⟨k, hk, hkm⟩
          · exact Or.inl h1
          · exact Or.inr ⟨k, hk, List.mem_cons_of_mem _ hkm⟩
        · rcases h2 with h2 | ⟨k, hk, hkm⟩
          · exact Or.inr ⟨j, h2, by simp⟩
          · exact Or.inr ⟨k, hk, List.mem_cons_of_mem _ hkm⟩

/-! ### Traversal lemmas over a chain segment -/

open DoubleLinkedList

theorem nthNode_none {T : Type} (h : Heap T) (k : Nat) : nthNode h none k = none := by
  cases k <;> rfl

theorem nthNode_of_chainSeg {T : Type} {h : Heap T} {xs : List (Nat × T)} :
    ∀ {p cur q r}, chainSeg h p cur xs q r →
      nthNode h cur xs.length = nthNode h r 0 := by
  induction xs with
  | nil => rintro p cur q r ⟨rfl, rfl⟩; rfl
  | cons iv xs ih =>
      obtain ⟨i, v⟩ := iv
      intro p cur q r hs
      rw [chainSeg_cons] at hs
      obtain ⟨rfl, n, hn, hv, hp, hrest⟩ := hs
      show nthNode h (some i) (xs.length + 1) = _
      rw [show nthNode h (some i) (xs.length + 1) =
        (match heapGet h i with
          | none => none
          | some n => nthNode h n.next xs.length) from rfl, hn]
      exact ih hrest

theorem traverseVals_none {T : Type} (h : Heap T) (fuel : Nat) :
    traverseVals h none fuel = [] := by
  cases fuel <;> rfl

theorem traverseVals_of_chainSeg {T : Type} {h : Heap T} {xs : List (Nat × T)} :
    ∀ {p cur q} {fuel : Nat}, chainSeg h p cur xs q none →
      xs.length ≤ fuel → traverseVals h cur fuel = xs.map Prod.snd := by
  induction xs with
  | nil =>
      rintro p cur q fuel ⟨rfl, hr⟩ _
      rw [← hr, traverseVals_none]
      rfl
  | cons iv xs ih =>
      obtain ⟨i, v⟩ := iv
      intro p cur q fuel hs hf
      rw [chainSeg_cons] at hs
      obtain ⟨rfl, n, hn, hv, hp, hrest⟩ := hs
      obtain ⟨f, rfl⟩ : ∃ f, fuel = f + 1 := by
        cases fuel with
        | zero => simp at hf
        | succ f => exact ⟨f, rfl⟩
      rw [show traverseVals h (some i) (f + 1) =
        (match heapGet h i with
          | none => []
          | some n => n.value :: traverseVals h n.next f) from rfl, hn]
      show n.value :: traverseVals h n.next f = List.map Prod.snd ((i, v) :: xs)
      have hfx : xs.length ≤ f := by simp at hf; omega
      rw [ih hrest hfx, hv]
      rfl

theorem traverseBack_none {T : Type} (h : Heap T) (fuel : Nat) :
    traverseBack h none fuel = [] := by
  cases fuel <;> rfl

theorem traverseBack_of_chainSeg {T : Type} {h : Heap T} {xs : List (Nat × T)} :
    ∀ {p cur q r} {fuel : Nat}, chainSeg h p cur xs q r →
      xs.length ≤ fuel →
      traverseBack h q fuel =
        (xs.map Prod.snd).reverse ++ traverseBack h p (fuel - xs.length) := by
  induction xs with
  | nil => rintro p cur q r fuel ⟨rfl, _⟩ _; simp
  | cons iv xs ih =>
      obtain ⟨i, v⟩ := iv
      intro p cur q r fuel hs hf
      rw [chainSeg_cons] at hs
      obtain ⟨rfl, n, hn, hv, hp, hrest⟩ := hs
      have hfx : xs.length ≤ fuel := by simp at hf; omega
      have h1 := ih hrest hfx
      obtain ⟨f, hfeq⟩ : ∃ f, fuel - xs.length = f + 1 := by
        refine ⟨fuel - xs.length - 1, ?_⟩
        simp at hf
        omega
      rw [h1, hfeq]
      rw [show traverseBack h (some i) (f + 1) =
        (match heapGet h i with
          | none => []
          | some n => n.value :: traverseBack h n.prev f) from rfl, hn]
      show (List.map Prod.snd xs).reverse ++ n.value :: traverseBack h n.prev f =
        (List.map Prod.snd ((i, v) :: xs)).reverse ++
          traverseBack h p (fuel - ((i, v) :: xs).length)
      rw [hv, hp]
      have hfeq2 : fuel - ((i, v) :: xs).length = f := by simp at hf ⊢; omega
      rw [hfeq2]
      simp

theorem findNode_none_cur {T : Type} [DecidableEq T] (h : Heap T) (v : T) (fuel : Nat) :
    findNode h v none fuel = none := by
  cases fuel <;> rfl

theorem findNode_not_mem {T : Type} [DecidableEq T] {h : Heap T} {v : T}
    {xs : List (Nat × T)} :
    ∀ {p cur q} {fuel : Nat}, chainSeg h p cur xs q none →
      xs.length ≤ fuel → v ∉ xs.map Prod.snd → findNode h v cur fuel = none := by
  induction xs with
  | nil =>
      rintro p cur q fuel ⟨rfl, hr⟩ _ _
      rw [← hr, findNode_none_cur]
  | cons iv xs ih =>
      obtain ⟨i, w⟩ := iv
      intro p cur q fuel hs hf hv
      rw [chainSeg_cons] at hs
      obtain ⟨rfl, n, hn, hw, hp, hrest⟩ := hs
      obtain ⟨f, rfl⟩ : ∃ f, fuel = f + 1 := by
        cases fuel with
        | zero => simp at hf
        | succ f => exact ⟨f, rfl⟩
      rw [show findNode h v (some i) (f + 1) =
        (match heapGet h i with
          | none => none
          | some n => if n.value = v then some (i, n) else findNode h v n.next f)
        from rfl, hn]
      show (if n.value = v then some (i, n) else findNode h v n.next f) = none
      have hv1 : w ≠ v := by
        intro hc
        exact hv (by simp [hc])
      have hv2 : v ∉ xs.map Prod.snd := by
        intro hc
        exact hv (by simp [hc])
      rw [if_neg (by rw [hw]; exact hv1)]
      have hfx : xs.length ≤ f := by simp at hf; omega
      exact ih hrest hfx hv2

theorem findNode_first {T : Type} [DecidableEq T] {h : Heap T} {v : T}
    {xs : List (Nat × T)} :
    ∀ {p cur q} {fuel : Nat}, chainSeg h p cur xs q none →
      xs.length ≤ fuel → v ∈ xs.map Prod.snd →
      ∃ A i n B, xs = A ++ (i, v) :: B ∧ v ∉ A.map Prod.snd ∧
        findNode h v cur fuel = some (i, n) ∧ heapGet h i = some n ∧ n.value = v := by
  induction xs with
  | nil => intro p cur q fuel _ _ hv; simp at hv
  | cons iv xs ih =>
      obtain ⟨i, w⟩ := iv
      intro p cur q fuel hs hf hv
      rw [chainSeg_cons] at hs
      obtain ⟨rfl, n, hn, hw, hp, hrest⟩ := hs
      obtain ⟨f, rfl⟩ : ∃ f, fuel = f + 1 := by
        cases fuel with
        | zero => simp at hf
        | succ f => exact ⟨f, rfl⟩
      rw [show findNode h v (some i) (f + 1) =
        (match heapGet h i with
          | none => none
          | some n => if n.value = v then some (i, n) else findNode h v n.next f)
        from rfl, hn]
      by_cases hwv : w = v
      · subst hwv
        refine ⟨[], i, n, xs, rfl, by simp, ?_, hn, hw⟩
        show (if n.value = w then some (i, n) else findNode h w n.next f) = some (i, n)
        rw [if_pos hw]
      · have hv2 : v ∈ xs.map Prod.snd := by
          rcases (by simpa using hv) with h1 | h1
          · exact absurd h1.symm hwv
          · simpa using h1
        have hfx : xs.length ≤ f := by simp at hf; omega
        obtain ⟨A, i0, n0, B, hxs, hA, hfind, hget, hval⟩ := ih hrest hfx hv2
        refine ⟨(i, w) :: A, i0, n0, B, by rw [hxs, List.cons_append], ?_, ?_, hget, hval⟩
        · simp only [List.map_cons, List.mem_cons]
          rintro (h1 | h1)
          · exact hwv h1.symm
          · exact hA h1
        · show (if n.value = v then some (i, n) else findNode h v n.next f) = some (i0, n0)
          rw [if_neg (by rw [hw]; exact hwv)]
          exact hfind

/-! ### Well-formedness facts and preservation -/

theorem WF.ids_lt {T : Type} {l : DoubleLinkedList T} {xs : List (Nat × T)}
    (hwf : WF l xs) : ∀ iv ∈ xs, iv.1 < l.heap.length := by
  intro iv hm
  exact heapGet_lt_of_isSome ((hwf.dom iv.1).mpr (List.mem_map_of_mem _ hm))

theorem WF.fresh {T : Type} {l : DoubleLinkedList T} {xs : List (Nat × T)}
    (hwf : WF l xs) : l.heap.length ∉ xs.map Prod.fst := by
  intro hm
  obtain ⟨iv, hiv, hfst⟩ := List.mem_map.mp hm
  have := hwf.ids_lt iv hiv
  omega

theorem wf_new (T : Type) : WF (DoubleLinkedList.new T) [] := by
  refine ⟨⟨rfl, rfl⟩, rfl, List.nodup_nil, ?_⟩
  intro i
  simp [heapGet, DoubleLinkedList.new]

theorem length_setPrev {T : Type} (h : Heap T) (i : Nat) (p : Option Nat) :
    (setPrev h i p).length = h.length := length_updCell _ _ _

theorem length_setNext {T : Type} (h : Heap T) (i : Nat) (q : Option Nat) :
    (setNext h i q).length = h.length := length_updCell _ _ _

theorem heapGet_setPrev_ne {T : Type} (h : Heap T) (i : Nat) (p : Option Nat)
    {j : Nat} (hj : j ≠ i) : heapGet (setPrev h i p) j = heapGet h j :=
  heapGet_updCell_ne _ _ _ hj

theorem heapGet_setNext_ne {T : Type} (h : Heap T) (i : Nat) (q : Option Nat)
    {j : Nat} (hj : j ≠ i) : heapGet (setNext h i q) j = heapGet h j :=
  heapGet_updCell_ne _ _ _ hj

theorem heapGet_setPrev_self {T : Type} {h : Heap T} {i : Nat} (p : Option Nat)
    {n : Node T} (hn : heapGet h i = some n) :
    heapGet (setPrev h i p) i = some { n with prev := p } :=
  heapGet_updCell_self _ hn

theorem heapGet_setNext_self {T : Type} {h : Heap T} {i : Nat} (q : Option Nat)
    {n : Node T} (hn : heapGet h i = some n) :
    heapGet (setNext h i q) i = some { n with next := q } :=
  heapGet_updCell_self _ hn

theorem isSome_heapGet_setPrev {T : Type} (h : Heap T) (i : Nat) (p : Option Nat)
    (j : Nat) : (heapGet (setPrev h i p) j).isSome = (heapGet h j).isSome :=
  isSome_heapGet_updCell _ _ _ _

theorem isSome_heapGet_setNext {T : Type} (h : Heap T) (i : Nat) (q : Option Nat)
    (j : Nat) : (heapGet (setNext h i q) j).isSome = (heapGet h j).isSome :=
  isSome_heapGet_updCell _ _ _ _

theorem wf_add {T : Type} {l : DoubleLinkedList T} {xs : List (Nat × T)}
    (hwf : WF l xs) (v : T) :
    WF (l.add v) ((l.heap.length, v) :: xs) := by
  obtain ⟨seg, len, nodup, dom⟩ := hwf
  rcases hhead : l.head with _ | i0
  · rw [hhead] at seg
    have hxs : xs = [] := chainSeg_nil_of_cur_none seg
    subst hxs
    obtain ⟨htail, -⟩ := seg
    have hadd : l.add v =
        { heap := l.heap ++ [some ⟨v, none, none⟩],
          head := some l.heap.length, tail := some l.heap.length,
          length := l.length + 1 } := by
      simp only [DoubleLinkedList.add, hhead]
    rw [hadd]
    refine ⟨?_, by simp [len], by simp, ?_⟩
    · rw [chainSeg_cons]
      exact ⟨rfl, _, heapGet_append_self _ _, rfl, rfl, rfl, rfl⟩
    · intro i
      rcases Decidable.em (i = l.heap.length) with rfl | hne
      · rw [heapGet_append_self]
        simp
      · rw [heapGet_append_ne _ _ hne]
        have hd := dom i
        simp only [List.map_nil, List.not_mem_nil, iff_false] at hd
        simp only [List.map_cons, List.map_nil, List.mem_cons, List.not_mem_nil, or_false]
        constructor
        · intro hs
          exact absurd hs hd
        · intro hc
          exact absurd hc hne
  · rw [hhead] at seg
    cases xs with
    | nil =>
        obtain ⟨-, hr⟩ := seg
        cases hr
    | cons iv rest =>
        obtain ⟨i0', v0⟩ := iv
        have hcur : (some i0 : Option Nat) = some i0' := chainSeg_head_some seg
        obtain rfl : i0 = i0' := by cases hcur; rfl
        rw [chainSeg_cons] at seg
        obtain ⟨-, n0, hn0, hval0, hprev0, hrest⟩ := seg
        have hi0lt : i0 < l.heap.length :=
          heapGet_lt_of_isSome (by rw [hn0]; rfl)
        have hadd : l.add v =
            { heap := setPrev l.heap i0 (some l.heap.length) ++
                [some ⟨v, none, some i0⟩],
              head := some l.heap.length, tail := l.tail,
              length := l.length + 1 } := by
          simp only [DoubleLinkedList.add, hhead]
        rw [hadd]
        have hlen_sp : (setPrev l.heap i0 (some l.heap.length)).length = l.heap.length :=
          length_setPrev _ _ _
        have hget_j : heapGet (setPrev l.heap i0 (some l.heap.length) ++
            [some ⟨v, none, some i0⟩]) l.heap.length = some ⟨v, none, some i0⟩ := by
          have hself := heapGet_append_self (setPrev l.heap i0 (some l.heap.length))
            (some ⟨v, none, some i0⟩)
          rwa [hlen_sp] at hself
        have hget_i0 : heapGet (setPrev l.heap i0 (some l.heap.length) ++
            [some ⟨v, none, some i0⟩]) i0 =
            some { n0 with prev := some l.heap.length } := by
          rw [heapGet_append_ne _ _ (by rw [hlen_sp]; omega)]
          exact heapGet_setPrev_self _ hn0
        have hnod : i0 ∉ rest.map Prod.fst ∧ (rest.map Prod.fst).Nodup := by
          simpa using nodup
        have hframe : ∀ iv ∈ rest, heapGet (setPrev l.heap i0 (some l.heap.length) ++
            [some ⟨v, none, some i0⟩]) iv.1 = heapGet l.heap iv.1 := by
          intro iv hm
          have hlt : iv.1 < l.heap.length :=
            heapGet_lt_of_isSome (chainSeg_mem_isSome hm hrest)
          have hne_i0 : iv.1 ≠ i0 := by
            intro hc
            exact hnod.1 (hc ▸ List.mem_map_of_mem _ hm)
          rw [heapGet_append_ne _ _ (by rw [hlen_sp]; omega),
            heapGet_setPrev_ne _ _ _ hne_i0]
        refine ⟨?_, by simp [len], ?_, ?_⟩
        · rw [chainSeg_cons]
          refine ⟨rfl, _, hget_j, rfl, rfl, ?_⟩
          rw [chainSeg_cons]
          exact ⟨rfl, _, hget_i0, hval0, rfl, chainSeg_frame hframe hrest⟩
        · simp only [List.map_cons, List.nodup_cons, List.mem_cons]
          refine ⟨?_, ?_, hnod.2⟩
          · rintro (hc | hc)
            · omega
            · obtain ⟨jv, hjv, hfst⟩ := List.mem_map.mp hc
              have := heapGet_lt_of_isSome (chainSeg_mem_isSome hjv hrest)
              omega
          · exact hnod.1
        · intro i
          rcases Decidable.em (i = l.heap.length) with rfl | hne
          · rw [hget_j]
            simp
          · rw [heapGet_append_ne _ _ (by rw [hlen_sp]; exact hne)]
            have hiso := isSome_heapGet_setPrev l.heap i0 (some l.heap.length) i
            rw [hiso]
            have hd := dom i
            simp only [List.map_cons, List.mem_cons] at hd ⊢
            rw [hd]
            constructor
            · intro hc
              exact Or.inr hc
            · rintro (hc | hc)
              · exact absurd hc hne
              · exact hc

theorem wf_append {T : Type} {l : DoubleLinkedList T} {xs : List (Nat × T)}
    (hwf : WF l xs) (v : T) :
    WF (l.append v) (xs ++ [(l.heap.length, v)]) := by
  have seg := hwf.seg
  have len := hwf.len
  have nodup := hwf.nodup
  have dom := hwf.dom
  rcases htail : l.tail with _ | t
  · have hxs : xs = [] := by
      rcases List.eq_nil_or_concat xs with h | ⟨ys, iv, hconcat⟩
      · exact h
      · rw [List.concat_eq_append] at hconcat
        rw [hconcat, htail] at seg
        have := chainSeg_concat_last seg
        cases this
    subst hxs
    obtain ⟨-, hhead⟩ := seg
    have happ : l.append v =
        { heap := l.heap ++ [some ⟨v, none, none⟩],
          head := some l.heap.length, tail := some l.heap.length,
          length := l.length + 1 } := by
      simp only [DoubleLinkedList.append, htail]
    rw [happ]
    refine ⟨?_, by simp [len], by simp, ?_⟩
    · rw [List.nil_append, chainSeg_cons]
      exact ⟨rfl, _, heapGet_append_self _ _, rfl, rfl, rfl, rfl⟩
    · intro i
      rcases Decidable.em (i = l.heap.length) with rfl | hne
      · rw [heapGet_append_self]
        simp
      · rw [heapGet_append_ne _ _ hne]
        have hd := dom i
        simp only [List.map_nil, List.not_mem_nil, iff_false] at hd
        simp only [List.nil_append, List.map_cons, List.map_nil, List.mem_cons,
          List.not_mem_nil, or_false]
        constructor
        · intro hs
          exact absurd hs hd
        · intro hc
          exact absurd hc hne
  · rcases List.eq_nil_or_concat xs with rfl | ⟨ys, iv, hconcat⟩
    · obtain ⟨hq, -⟩ := seg
      rw [htail] at hq
      cases hq
    · rw [List.concat_eq_append] at hconcat
      subst hconcat
      obtain ⟨t', w⟩ := iv
      have hlast := chainSeg_concat_last seg
      rw [htail] at hlast
      obtain rfl : t = t' := by cases hlast; rfl
      obtain ⟨q1, r1, hseg1, hseg2⟩ := chainSeg_split seg
      rw [chainSeg_cons] at hseg2
      obtain ⟨hr1, nt, hnt, hvalt, hprevt, hq2, hr2⟩ := hseg2
      have htlt : t < l.heap.length := heapGet_lt_of_isSome (by rw [hnt]; rfl)
      have happ : l.append v =
          { heap := setNext l.heap t (some l.heap.length) ++ [some ⟨v, some t, none⟩],
            head := l.head, tail := some l.heap.length,
            length := l.length + 1 } := by
        simp only [DoubleLinkedList.append, htail]
      rw [happ]
      have hlen_sn : (setNext l.heap t (some l.heap.length)).length = l.heap.length :=
        length_setNext _ _ _
      have hget_j : heapGet (setNext l.heap t (some l.heap.length) ++
          [some ⟨v, some t, none⟩]) l.heap.length = some ⟨v, some t, none⟩ := by
        have hself := heapGet_append_self (setNext l.heap t (some l.heap.length))
          (some ⟨v, some t, none⟩)
        rwa [hlen_sn] at hself
      have hget_t : heapGet (setNext l.heap t (some l.heap.length) ++
          [some ⟨v, some t, none⟩]) t =
          some { nt with next := some l.heap.length } := by
        rw [heapGet_append_ne _ _ (by rw [hlen_sn]; omega)]
        exact heapGet_setNext_self _ hnt
      have hnod : t ∉ ys.map Prod.fst ∧ (ys.map Prod.fst).Nodup := by
        have h1 : ((ys ++ [(t, w)]).map Prod.fst).Nodup := nodup
        rw [List.map_append] at h1
        have h2 : (Prod.fst (t, w) :: (ys.map Prod.fst ++ [])).Nodup :=
          (List.nodup_middle).mp (by simpa using h1)
        simp only [List.append_nil, List.nodup_cons] at h2
        exact h2
      have hframe : ∀ iv ∈ ys, heapGet (setNext l.heap t (some l.heap.length) ++
          [some ⟨v, some t, none⟩]) iv.1 = heapGet l.heap iv.1 := by
        intro iv hm
        have hlt : iv.1 < l.heap.length :=
          heapGet_lt_of_isSome ((dom iv.1).mpr
            (by rw [List.map_append]; exact List.mem_append_left _ (List.mem_map_of_mem _ hm)))
        have hne_t : iv.1 ≠ t := by
          intro hc
          exact hnod.1 (hc ▸ List.mem_map_of_mem _ hm)
        rw [heapGet_append_ne _ _ (by rw [hlen_sn]; omega),
          heapGet_setNext_ne _ _ _ hne_t]
      refine ⟨?_, by simp [len], ?_, ?_⟩
      · have hS1 : chainSeg (setNext l.heap t (some l.heap.length) ++
            [some ⟨v, some t, none⟩]) none l.head ys q1 r1 :=
          chainSeg_frame hframe hseg1
        have hS2 : chainSeg (setNext l.heap t (some l.heap.length) ++
            [some ⟨v, some t, none⟩]) q1 r1 [(t, w)] (some t) (some l.heap.length) := by
          rw [chainSeg_cons]
          exact ⟨hr1, _, hget_t, hvalt, hprevt, rfl, rfl⟩
        have hS3 : chainSeg (setNext l.heap t (some l.heap.length) ++
            [some ⟨v, some t, none⟩]) (some t) (some l.heap.length)
            [(l.heap.length, v)] (some l.heap.length) none := by
          rw [chainSeg_cons]
          exact ⟨rfl, _, hget_j, rfl, rfl, rfl, rfl⟩
        exact chainSeg_append (chainSeg_append hS1 hS2) hS3
      · have hfr : l.heap.length ∉ (ys ++ [(t, w)]).map Prod.fst := hwf.fresh
        rw [List.map_append] at hfr ⊢
        rw [List.map_append]
        have : ((ys.map Prod.fst ++ [t]) ++ [l.heap.length]).Nodup := by
          rw [List.nodup_append]
          refine ⟨by simpa using nodup, by simp, ?_⟩
          intro a ha
          simp only [List.mem_singleton]
          intro hc
          subst hc
          exact hfr (by simpa using ha)
        simpa using this
      · intro i
        rcases Decidable.em (i = l.heap.length) with rfl | hne
        · rw [hget_j]
          simp
        · rw [heapGet_append_ne _ _ (by rw [hlen_sn]; exact hne)]
          rw [isSome_heapGet_setNext]
          have hd := dom i
          rw [hd]
          simp only [List.map_append, List.mem_append, List.map_cons, List.map_nil,
            List.mem_cons, List.not_mem_nil, or_false, List.mem_singleton]
          constructor
          · intro hc
            exact Or.inl hc
          · rintro (hc | hc)
            · exact hc
            · exact absurd hc hne

theorem insert_mid {T : Type} {l : DoubleLinkedList T} {xs : List (Nat × T)}
    (hwf : WF l xs) (v : T) {idx : Nat} (h0 : 0 < idx) (hlen : idx < l.length) :
    ∃ l', l.insert v idx = some l' ∧
      WF l' (xs.take idx ++ (l.heap.length, v) :: xs.drop idx) := by
  have seg := hwf.seg
  have len := hwf.len
  have nodup := hwf.nodup
  have dom := hwf.dom
  have hfresh := hwf.fresh
  have hidxlt : idx < xs.length := by omega
  have hAdef : xs.take idx ++ xs.drop idx = xs := List.take_append_drop idx xs
  obtain ⟨old, w, hxg⟩ : ∃ a b, xs[idx] = (a, b) := ⟨xs[idx].1, xs[idx].2, rfl⟩
  have hdrop : xs.drop idx = (old, w) :: xs.drop (idx + 1) := by
    rw [List.drop_eq_getElem_cons hidxlt, hxg]
  have hxs_eq : xs = xs.take idx ++ (old, w) :: xs.drop (idx + 1) := by
    conv_lhs => rw [← hAdef]
    rw [hdrop]
  have hAlen : (xs.take idx).length = idx := by
    rw [List.length_take]
    omega
  rw [hxs_eq] at seg
  obtain ⟨q1, r1, hsegA0, hseg2⟩ := chainSeg_split seg
  rw [chainSeg_cons] at hseg2
  obtain ⟨hr1, n_old, hnold, hvold, hpold, hsegB⟩ := hseg2
  have holdlt : old < l.heap.length := heapGet_lt_of_isSome (by rw [hnold]; rfl)
  obtain ⟨A', p0w0, hAcc⟩ : ∃ ys iv, xs.take idx = ys ++ [iv] := by
    rcases List.eq_nil_or_concat (xs.take idx) with h | ⟨ys, iv, hc⟩
    · rw [h] at hAlen
      simp at hAlen
      omega
    · exact ⟨ys, iv, by rw [hc, List.concat_eq_append]⟩
  obtain ⟨p0, w0⟩ := p0w0
  have hsegA := hsegA0
  rw [hAcc] at hsegA
  have hq1 : q1 = some p0 := chainSeg_concat_last hsegA
  obtain ⟨q2, r2, hsegA1, hsegA2⟩ := chainSeg_split hsegA
  rw [chainSeg_cons] at hsegA2
  obtain ⟨hr2, np0, hnp0, hvp0, hpp0, hq1', hr1'⟩ := hsegA2
  have hp0lt : p0 < l.heap.length := heapGet_lt_of_isSome (by rw [hnp0]; rfl)
  have hnp0next : np0.next = some old := by rw [← hr1', hr1]
  -- nodup pieces on the decomposed list
  have nodup' := nodup
  rw [hxs_eq, List.map_append, List.map_cons, List.nodup_append] at nodup'
  obtain ⟨ndA, ndOB, disj⟩ := nodup'
  have hp0_memA : p0 ∈ (xs.take idx).map Prod.fst := by
    rw [hAcc, List.map_append]
    exact List.mem_append_right _ (by simp)
  have hp0_ne_old : p0 ≠ old := by
    intro hc
    exact (disj hp0_memA) (by simp [hc])
  have hp0_notin_A' : p0 ∉ A'.map Prod.fst := by
    have := ndA
    rw [hAcc, List.map_append] at this
    rw [List.nodup_append] at this
    intro hc
    exact (this.2.2 hc) (by simp)
  have hfreshD : l.heap.length ∉ ((xs.take idx).map Prod.fst) ∧
      l.heap.length ≠ old ∧ l.heap.length ∉ ((xs.drop (idx + 1)).map Prod.fst) := by
    rw [hxs_eq, List.map_append, List.map_cons] at hfresh
    simp only [List.mem_append, List.mem_cons] at hfresh
    push_neg at hfresh
    exact hfresh
  -- the node the Rust code locates with nth(index)
  have hnth : nthNode l.heap l.head idx = some (old, n_old) := by
    have h1 := nthNode_of_chainSeg hsegA0
    rw [hAlen] at h1
    rw [h1, hr1]
    show (heapGet l.heap old).map (fun n => (old, n)) = some (old, n_old)
    rw [hnold]
    rfl
  have hprev_eq : n_old.prev = some p0 := by rw [hpold, hq1]
  have hne0 : ¬ idx = 0 := by omega
  have hnle : ¬ l.length ≤ idx := by omega
  have hins : l.insert v idx = some
      { heap := setNext (setPrev (l.heap ++ [some ⟨v, some p0, some old⟩]) old
          (some l.heap.length)) p0 (some l.heap.length),
        head := l.head, tail := l.tail, length := l.length + 1 } := by
    simp only [DoubleLinkedList.insert, if_neg hne0, if_neg hnle, hnth, hprev_eq]
  refine ⟨_, hins, ?_⟩
  -- cell contents of the new heap
  have hget_j : heapGet (setNext (setPrev (l.heap ++ [some ⟨v, some p0, some old⟩]) old
      (some l.heap.length)) p0 (some l.heap.length)) l.heap.length =
      some ⟨v, some p0, some old⟩ := by
    rw [heapGet_setNext_ne _ _ _ (by omega), heapGet_setPrev_ne _ _ _ (by omega),
      heapGet_append_self]
  have hget_old : heapGet (setNext (setPrev (l.heap ++ [some ⟨v, some p0, some old⟩]) old
      (some l.heap.length)) p0 (some l.heap.length)) old =
      some { n_old with prev := some l.heap.length } := by
    rw [heapGet_setNext_ne _ _ _ (Ne.symm hp0_ne_old)]
    refine heapGet_setPrev_self _ ?_
    rw [heapGet_append_ne _ _ (by omega)]
    exact hnold
  have hget_p0 : heapGet (setNext (setPrev (l.heap ++ [some ⟨v, some p0, some old⟩]) old
      (some l.heap.length)) p0 (some l.heap.length)) p0 =
      some { np0 with next := some l.heap.length } := by
    refine heapGet_setNext_self _ ?_
    rw [heapGet_setPrev_ne _ _ _ hp0_ne_old, heapGet_append_ne _ _ (by omega)]
    exact hnp0
  have hframe_other : ∀ k, k ≠ l.heap.length → k ≠ old → k ≠ p0 →
      heapGet (setNext (setPrev (l.heap ++ [some ⟨v, some p0, some old⟩]) old
        (some l.heap.length)) p0 (some l.heap.length)) k = heapGet l.heap k := by
    intro k hk1 hk2 hk3
    rw [heapGet_setNext_ne _ _ _ hk3, heapGet_setPrev_ne _ _ _ hk2,
      heapGet_append_ne _ _ hk1]
  refine ⟨?_, ?_, ?_, ?_⟩
  · -- the chain of the new list
    show chainSeg _ none l.head (xs.take idx ++ (l.heap.length, v) :: xs.drop idx) l.tail none
    have hS1 : chainSeg (setNext (setPrev (l.heap ++ [some ⟨v, some p0, some old⟩]) old
        (some l.heap.length)) p0 (some l.heap.length)) none l.head A' q2 r2 := by
      refine chainSeg_frame ?_ hsegA1
      intro iv hm
      have hmemA : iv.1 ∈ (xs.take idx).map Prod.fst := by
        rw [hAcc, List.map_append]
        exact List.mem_append_left _ (List.mem_map_of_mem _ hm)
      have hmemxs : iv.1 ∈ xs.map Prod.fst := by
        have h2 : iv.1 ∈ (xs.take idx ++ xs.drop idx).map Prod.fst := by
          rw [List.map_append]
          exact List.mem_append_left _ hmemA
        rwa [hAdef] at h2
      have hlt : iv.1 < l.heap.length := heapGet_lt_of_isSome ((dom iv.1).mpr hmemxs)
      have hne_old : iv.1 ≠ old := by
        intro hc
        exact (disj hmemA) (by simp [hc])
      have hne_p0 : iv.1 ≠ p0 := by
        intro hc
        exact hp0_notin_A' (hc ▸ List.mem_map_of_mem _ hm)
      exact hframe_other _ (by omega) hne_old hne_p0
    have hS2 : chainSeg (setNext (setPrev (l.heap ++ [some ⟨v, some p0, some old⟩]) old
        (some l.heap.length)) p0 (some l.heap.length)) q2 r2 [(p0, w0)]
        (some p0) (some l.heap.length) := by
      rw [chainSeg_cons]
      exact ⟨hr2, _, hget_p0, hvp0, hpp0, rfl, rfl⟩
    have hS3 : chainSeg (setNext (setPrev (l.heap ++ [some ⟨v, some p0, some old⟩]) old
        (some l.heap.length)) p0 (some l.heap.length)) (some p0) (some l.heap.length)
        [(l.heap.length, v)] (some l.heap.length) (some old) := by
      rw [chainSeg_cons]
      exact ⟨rfl, _, hget_j, rfl, rfl, rfl, rfl⟩
    have hS4 : chainSeg (setNext (setPrev (l.heap ++ [some ⟨v, some p0, some old⟩]) old
        (some l.heap.length)) p0 (some l.heap.length)) (some l.heap.length) (some old)
        [(old, w)] (some old) n_old.next := by
      rw [chainSeg_cons]
      exact ⟨rfl, _, hget_old, hvold, rfl, rfl, rfl⟩
    have hS5 : chainSeg (setNext (setPrev (l.heap ++ [some ⟨v, some p0, some old⟩]) old
        (some l.heap.length)) p0 (some l.heap.length)) (some old) n_old.next
        (xs.drop (idx + 1)) l.tail none := by
      refine chainSeg_frame ?_ hsegB
      intro iv hm
      have hmemB : iv.1 ∈ (xs.drop (idx + 1)).map Prod.fst := List.mem_map_of_mem _ hm
      have hmemxs : iv.1 ∈ xs.map Prod.fst := by
        rw [hxs_eq, List.map_append, List.map_cons]
        exact List.mem_append_right _ (List.mem_cons_of_mem _ hmemB)
      have hlt : iv.1 < l.heap.length := heapGet_lt_of_isSome ((dom iv.1).mpr hmemxs)
      have hne_old : iv.1 ≠ old := by
        intro hc
        have hnd := ndOB
        rw [List.nodup_cons] at hnd
        exact hnd.1 (hc ▸ hmemB)
      have hne_p0 : iv.1 ≠ p0 := by
        intro hc
        refine (disj hp0_memA) ?_
        rw [← hc]
        exact List.mem_cons_of_mem _ hmemB
      exact hframe_other _ (by omega) hne_old hne_p0
    have htot := chainSeg_append hS1 (chainSeg_append hS2
      (chainSeg_append hS3 (chainSeg_append hS4 hS5)))
    have hlist : A' ++ ([(p0, w0)] ++ ([(l.heap.length, v)] ++ ([(old, w)] ++
        xs.drop (idx + 1)))) =
        xs.take idx ++ (l.heap.length, v) :: xs.drop idx := by
      rw [hAcc, hdrop]
      simp
    rw [hlist] at htot
    exact htot
  · show l.length + 1 = (xs.take idx ++ (l.heap.length, v) :: xs.drop idx).length
    rw [List.length_append, hAlen, List.length_cons, List.length_drop]
    omega
  · show ((xs.take idx ++ (l.heap.length, v) :: xs.drop idx).map Prod.fst).Nodup
    rw [List.map_append, List.map_cons, List.nodup_middle, ← List.map_append, hAdef]
    exact List.nodup_cons.mpr ⟨hfresh, nodup⟩
  · intro i
    rcases Decidable.em (i = l.heap.length) with rfl | hne
    · rw [hget_j]
      simp
    · show (heapGet (setNext (setPrev (l.heap ++ [some ⟨v, some p0, some old⟩]) old
        (some l.heap.length)) p0 (some l.heap.length)) i).isSome ↔ _
      rw [show (heapGet (setNext (setPrev (l.heap ++ [some ⟨v, some p0, some old⟩]) old
          (some l.heap.length)) p0 (some l.heap.length)) i).isSome =
          (heapGet l.heap i).isSome from by
        rw [isSome_heapGet_setNext, isSome_heapGet_setPrev]
        rw [heapGet_append_ne _ _ hne]]
      rw [dom i]
      constructor
      · intro hi
        have hi2 : i ∈ (xs.take idx ++ xs.drop idx).map Prod.fst := by
          rw [hAdef]
          exact hi
        rw [List.map_append, List.mem_append] at hi2
        rw [List.map_append, List.map_cons]
        rcases hi2 with h | h
        · exact List.mem_append_left _ h
        · exact List.mem_append_right _ (List.mem_cons_of_mem _ h)
      · intro hi
        rw [List.map_append, List.map_cons, List.mem_append, List.mem_cons] at hi
        have hi2 : i ∈ (xs.take idx).map Prod.fst ∨ i ∈ (xs.drop idx).map Prod.fst := by
          rcases hi with h | h | h
          · exact Or.inl h
          · exact absurd h hne
          · exact Or.inr h
        rcases hi2 with h | h
        · have h2 : i ∈ (xs.take idx ++ xs.drop idx).map Prod.fst := by
            rw [List.map_append]
            exact List.mem_append_left _ h
          rwa [hAdef] at h2
        · have h2 : i ∈ (xs.take idx ++ xs.drop idx).map Prod.fst := by
            rw [List.map_append]
            exact List.mem_append_right _ h
          rwa [hAdef] at h2

theorem WF.head_mem {T : Type} {l : DoubleLinkedList T} {ys : List (Nat × T)}
    (hwf : WF l ys) {k : Nat} (hk : l.head = some k) : k ∈ ys.map Prod.fst := by
  have seg := hwf.seg
  cases ys with
  | nil =>
      obtain ⟨-, hr⟩ := seg
      rw [hk] at hr
      cases hr
  | cons iv ys =>
      obtain ⟨i, w⟩ := iv
      have := chainSeg_head_some seg
      rw [hk] at this
      cases this
      simp
theorem WF.tail_mem {T : Type} {l : DoubleLinkedList T} {ys : List (Nat × T)}
    (hwf : WF l ys) {k : Nat} (hk : l.tail = some k) : k ∈ ys.map Prod.fst := by
  have seg := hwf.seg
  rcases List.eq_nil_or_concat ys with rfl | ⟨zs, iv, hconcat⟩
  · obtain ⟨hq, -⟩ := seg
    rw [hk] at hq
    cases hq
  · rw [List.concat_eq_append] at hconcat
    subst hconcat
    have := chainSeg_concat_last seg
    rw [hk] at this
    cases this
    rw [List.map_append]
    exact List.mem_append_right _ (by simp)

theorem remove_absent {T : Type} [DecidableEq T] {l : DoubleLinkedList T}
    {xs : List (Nat × T)} (hwf : WF l xs) {v : T} (hv : v ∉ xs.map Prod.snd) :
    l.remove v = (none, l) := by
  have h := findNode_not_mem hwf.seg hwf.len.ge hv
  unfold DoubleLinkedList.remove
  rw [h]

theorem mem_map_fst_middle {T : Type} {A B : List (Nat × T)} {i k : Nat} {v : T}
    (hk : k ≠ i) :
    (k ∈ (A ++ (i, v) :: B).map Prod.fst) ↔ k ∈ (A ++ B).map Prod.fst := by
  simp only [List.map_append, List.map_cons, List.mem_append, List.mem_cons]
  constructor
  · rintro (h | h | h)
    · exact Or.inl h
    · exact absurd h hk
    · exact Or.inr h
  · rintro (h | h)
    · exact Or.inl h
    · exact Or.inr (Or.inr h)

theorem not_mem_map_fst_removed {T : Type} {A B : List (Nat × T)} {i : Nat}
    (hA : i ∉ A.map Prod.fst) (hB : i ∉ B.map Prod.fst) :
    i ∉ (A ++ B).map Prod.fst := by
  rw [List.map_append]
  intro hc
  rcases List.mem_append.mp hc with h | h
  · exact hA h
  · exact hB h

theorem remove_present {T : Type} [DecidableEq T] {l : DoubleLinkedList T}
    {xs : List (Nat × T)} (hwf : WF l xs) {v : T} (hv : v ∈ xs.map Prod.snd) :
    ∃ A i n B, xs = A ++ (i, v) :: B ∧ v ∉ A.map Prod.snd ∧
      findNode l.heap v l.head l.length = some (i, n) ∧
      heapGet l.heap i = some n ∧ n.value = v ∧
      l.remove v = (some v, (l.unlink n).free i) ∧
      WF ((l.unlink n).free i) (A ++ B) ∧
      heapGet (l.unlink n).heap i = some n ∧
      (∀ k, n.prev = some k → k ≠ i) ∧
      (∀ k, n.next = some k → k ≠ i) := by
  have seg := hwf.seg
  have len := hwf.len
  have nodup := hwf.nodup
  have dom := hwf.dom
  obtain ⟨A, i, n, B, hxs, hA, hfind, hget, hval⟩ := findNode_first seg hwf.len.ge hv
  subst hxs
  obtain ⟨qA, rA, hsegA, hseg2⟩ := chainSeg_split seg
  rw [chainSeg_cons] at hseg2
  obtain ⟨hrA, n', hn', hval', hprev', hsegB⟩ := hseg2
  rw [hget] at hn'
  injection hn' with heq
  subst heq
  have nodup' := nodup
  rw [List.map_append, List.map_cons, List.nodup_append] at nodup'
  obtain ⟨ndA, ndIB, disj⟩ := nodup'
  rw [List.nodup_cons] at ndIB
  obtain ⟨hi_notB, ndB⟩ := ndIB
  have hi_notA : (i : Nat) ∉ A.map Prod.fst := fun hc => (disj hc) (by simp)
  have hilt : i < l.heap.length := heapGet_lt_of_isSome (by rw [hget]; rfl)
  have hremove : l.remove v = (some v, (l.unlink n).free i) := by
    unfold DoubleLinkedList.remove
    rw [hfind]
    show (some n.value, (l.unlink n).free i) = (some v, (l.unlink n).free i)
    rw [hval]
  have hlenx : l.length = A.length + B.length + 1 := by
    rw [len]
    simp
    omega
  rcases hprev : n.prev with _ | p
  · -- the removed node is the head
    have hqA : qA = none := by rw [← hprev', hprev]
    have hA_nil : A = [] := by
      rcases List.eq_nil_or_concat A with h | ⟨A2, iv2, hc⟩
      · exact h
      · rw [List.concat_eq_append] at hc
        rw [hc] at hsegA
        have hlast := chainSeg_concat_last hsegA
        rw [hqA] at hlast
        cases hlast
    subst hA_nil
    obtain ⟨-, hr⟩ := hsegA
    have hhead_i : l.head = some i := by rw [← hr]; exact hrA
    rcases hnext : n.next with _ | b
    · -- singleton list
      have hB_nil : B = [] := by
        cases B with
        | nil => rfl
        | cons iv B' =>
            obtain ⟨b', wb⟩ := iv
            have := chainSeg_head_some hsegB
            rw [hnext] at this
            cases this
      subst hB_nil
      obtain ⟨htail_i, -⟩ := hsegB
      have hunlink : l.unlink n =
          { heap := l.heap, head := none, tail := none,
            length := l.length - 1 } := by
        simp only [DoubleLinkedList.unlink, hprev, hnext]
      refine ⟨[], i, n, [], rfl, hA, hfind, hget, hval, hremove, ?_, ?_, ?_, ?_⟩
      · rw [hunlink]
        refine ⟨⟨rfl, rfl⟩, ?_, by simp, ?_⟩
        · show l.length - 1 = _
          simp only [List.length_append, List.length_cons, List.length_nil] at hlenx ⊢
          omega
        intro k
        rcases Decidable.em (k = i) with rfl | hk
        · show (heapGet (l.heap.set k none) k).isSome ↔ _
          rw [heapGet_set_none_self]
          constructor
          · intro hc
            simp at hc
          · intro hc
            exact absurd hc (not_mem_map_fst_removed hi_notA hi_notB)
        · show (heapGet (l.heap.set i none) k).isSome ↔ _
          rw [heapGet_set_none_ne _ _ hk, dom k]
          exact mem_map_fst_middle hk
      · rw [hunlink]
        exact hget
      · intro k hk
        rw [hprev] at hk
        cases hk
      · intro k hk
        rw [hnext] at hk
        cases hk
    · -- head removal with a successor
      obtain ⟨b', wb, B', rfl⟩ : ∃ b' wb B', B = (b', wb) :: B' := by
        cases B with
        | nil =>
            obtain ⟨-, hr2⟩ := hsegB
            rw [hnext] at hr2
            cases hr2
        | cons iv B' =>
            obtain ⟨b', wb⟩ := iv
            exact ⟨b', wb, B', rfl⟩
      obtain rfl : b = b' := by
        have := chainSeg_head_some hsegB
        rw [hnext] at this
        cases this
        rfl
      rw [chainSeg_cons] at hsegB
      obtain ⟨-, nb, hnb, hvb, hpb, hsegB'⟩ := hsegB
      have hb_ne_i : b ≠ i := by
        intro hc
        refine hi_notB ?_
        rw [← hc]
        simp
      have hb_notB' : b ∉ B'.map Prod.fst ∧ (B'.map Prod.fst).Nodup := by
        simpa using ndB
      have hunlink : l.unlink n =
          { heap := setPrev l.heap b none, head := some b, tail := l.tail,
            length := l.length - 1 } := by
        simp only [DoubleLinkedList.unlink, hprev, hnext]
      refine ⟨[], i, n, (b, wb) :: B', rfl, hA, hfind, hget, hval, hremove, ?_, ?_, ?_, ?_⟩
      · rw [hunlink]
        refine ⟨?_, ?_, by simpa using ndB, ?_⟩
        · show chainSeg ((setPrev l.heap b none).set i none) none (some b)
            ((b, wb) :: B') l.tail none
          rw [chainSeg_cons]
          refine ⟨rfl, { nb with prev := none }, ?_, hvb, rfl, ?_⟩
          · rw [heapGet_set_none_ne _ _ hb_ne_i]
            exact heapGet_setPrev_self _ hnb
          · show chainSeg _ (some b) nb.next B' l.tail none
            refine chainSeg_frame ?_ hsegB'
            intro iv hm
            have hmB' : iv.1 ∈ B'.map Prod.fst := List.mem_map_of_mem _ hm
            have hne_i : iv.1 ≠ i := by
              intro hc
              refine hi_notB ?_
              rw [← hc]
              simp [hmB']
            have hne_b : iv.1 ≠ b := by
              intro hc
              exact hb_notB'.1 (hc ▸ hmB')
            rw [heapGet_set_none_ne _ _ hne_i, heapGet_setPrev_ne _ _ _ hne_b]
        · show l.length - 1 = _
          simp only [List.length_append, List.length_cons, List.length_nil] at hlenx ⊢
          omega
        · intro k
          rcases Decidable.em (k = i) with rfl | hk
          · show (heapGet ((setPrev l.heap b none).set k none) k).isSome ↔ _
            rw [heapGet_set_none_self]
            constructor
            · intro hc
              simp at hc
            · intro hc
              exact absurd hc (not_mem_map_fst_removed hi_notA hi_notB)
          · show (heapGet ((setPrev l.heap b none).set i none) k).isSome ↔ _
            rw [heapGet_set_none_ne _ _ hk, isSome_heapGet_setPrev, dom k]
            exact mem_map_fst_middle hk
      · rw [hunlink]
        show heapGet (setPrev l.heap b none) i = some n
        rw [heapGet_setPrev_ne _ _ _ (Ne.symm hb_ne_i)]
        exact hget
      · intro k hk
        rw [hprev] at hk
        cases hk
      · intro k hk
        rw [hnext] at hk
        injection hk with hk
        subst hk
        exact hb_ne_i
  · -- the removed node has a predecessor p
    have hqA : qA = some p := by rw [← hprev', hprev]
    obtain ⟨A', pw, hAcc⟩ : ∃ ys iv, A = ys ++ [iv] := by
      rcases List.eq_nil_or_concat A with h | ⟨ys, iv, hc⟩
      · subst h
        obtain ⟨hq, -⟩ := hsegA
        rw [hqA] at hq
        cases hq
      · exact ⟨ys, iv, by rw [hc, List.concat_eq_append]⟩
    obtain ⟨p', wp⟩ := pw
    obtain rfl : p = p' := by
      rw [hAcc] at hsegA
      have := chainSeg_concat_last hsegA
      rw [hqA] at this
      cases this
      rfl
    subst hAcc
    obtain ⟨qA2, rA2, hsegA1, hsegA2⟩ := chainSeg_split hsegA
    rw [chainSeg_cons] at hsegA2
    obtain ⟨hrA2, np, hnp, hvp, hpp, hqA', hrA'⟩ := hsegA2
    have hnpnext : np.next = some i := by rw [← hrA']; exact hrA
    have hplt : p < l.heap.length := heapGet_lt_of_isSome (by rw [hnp]; rfl)
    have hp_memA : p ∈ (A' ++ [(p, wp)]).map Prod.fst := by
      rw [List.map_append]
      exact List.mem_append_right _ (by simp)
    have hp_ne_i : p ≠ i := by
      intro hc
      exact hi_notA (hc ▸ hp_memA)
    have hp_notA' : p ∉ A'.map Prod.fst := by
      have h1 := ndA
      rw [List.map_append, List.nodup_append] at h1
      intro hc
      exact (h1.2.2 hc) (by simp)
    rcases hnext : n.next with _ | b
    · -- the removed node is the tail
      have hB_nil : B = [] := by
        cases B with
        | nil => rfl
        | cons iv B' =>
            obtain ⟨b', wb⟩ := iv
            have := chainSeg_head_some hsegB
            rw [hnext] at this
            cases this
      subst hB_nil
      obtain ⟨htail_i, -⟩ := hsegB
      have hunlink : l.unlink n =
          { heap := setNext l.heap p none, head := l.head, tail := some p,
            length := l.length - 1 } := by
        simp only [DoubleLinkedList.unlink, hprev, hnext]
      refine ⟨A' ++ [(p, wp)], i, n, [], rfl, hA, hfind, hget, hval, hremove,
        ?_, ?_, ?_, ?_⟩
      · rw [hunlink]
        refine ⟨?_, ?_, ?_, ?_⟩
        · show chainSeg ((setNext l.heap p none).set i none) none l.head
            ((A' ++ [(p, wp)]) ++ []) (some p) none
          rw [List.append_nil]
          have hS1 : chainSeg ((setNext l.heap p none).set i none) none l.head
              A' qA2 rA2 := by
            refine chainSeg_frame ?_ hsegA1
            intro iv hm
            have hmA' : iv.1 ∈ A'.map Prod.fst := List.mem_map_of_mem _ hm
            have hne_i : iv.1 ≠ i := by
              intro hc
              refine hi_notA ?_
              rw [← hc, List.map_append]
              exact List.mem_append_left _ hmA'
            have hne_p : iv.1 ≠ p := by
              intro hc
              exact hp_notA' (hc ▸ hmA')
            rw [heapGet_set_none_ne _ _ hne_i, heapGet_setNext_ne _ _ _ hne_p]
          have hS2 : chainSeg ((setNext l.heap p none).set i none) qA2 rA2
              [(p, wp)] (some p) none := by
            rw [chainSeg_cons]
            refine ⟨hrA2, { np with next := none }, ?_, hvp, hpp, rfl, rfl⟩
            rw [heapGet_set_none_ne _ _ hp_ne_i]
            exact heapGet_setNext_self _ hnp
          exact chainSeg_append hS1 hS2
        · show l.length - 1 = _
          simp only [List.length_append, List.length_cons, List.length_nil] at hlenx ⊢
          omega
        · rw [List.append_nil]
          exact ndA
        · intro k
          rcases Decidable.em (k = i) with rfl | hk
          · show (heapGet ((setNext l.heap p none).set k none) k).isSome ↔ _
            rw [heapGet_set_none_self]
            constructor
            · intro hc
              simp at hc
            · intro hc
              exact absurd hc (not_mem_map_fst_removed hi_notA hi_notB)
          · show (heapGet ((setNext l.heap p none).set i none) k).isSome ↔ _
            rw [heapGet_set_none_ne _ _ hk, isSome_heapGet_setNext, dom k]
            exact mem_map_fst_middle hk
      · rw [hunlink]
        show heapGet (setNext l.heap p none) i = some n
        rw [heapGet_setNext_ne _ _ _ (Ne.symm hp_ne_i)]
        exact hget
      · intro k hk
        rw [hprev] at hk
        injection hk with hk
        subst hk
        exact hp_ne_i
      · intro k hk
        rw [hnext] at hk
        cases hk
    · -- interior removal: predecessor p and successor b
      obtain ⟨b', wb, B', rfl⟩ : ∃ b' wb B', B = (b', wb) :: B' := by
        cases B with
        | nil =>
            obtain ⟨-, hr2⟩ := hsegB
            rw [hnext] at hr2
            cases hr2
        | cons iv B' =>
            obtain ⟨b', wb⟩ := iv
            exact ⟨b', wb, B', rfl⟩
      obtain rfl : b = b' := by
        have := chainSeg_head_some hsegB
        rw [hnext] at this
        cases this
        rfl
      rw [chainSeg_cons] at hsegB
      obtain ⟨-, nb, hnb, hvb, hpb, hsegB'⟩ := hsegB
      have hb_ne_i : b ≠ i := by
        intro hc
        refine hi_notB ?_
        rw [← hc]
        simp
      have hb_notB' : b ∉ B'.map Prod.fst ∧ (B'.map Prod.fst).Nodup := by
        simpa using ndB
      have hp_ne_b : p ≠ b := by
        intro hc
        refine (disj hp_memA) ?_
        rw [hc]
        simp
      have hunlink : l.unlink n =
          { heap := setPrev (setNext l.heap p (some b)) b (some p),
            head := l.head, tail := l.tail, length := l.length - 1 } := by
        simp only [DoubleLinkedList.unlink, hprev, hnext]
      refine ⟨A' ++ [(p, wp)], i, n, (b, wb) :: B', rfl, hA, hfind, hget, hval,
        hremove, ?_, ?_, ?_, ?_⟩
      · rw [hunlink]
        refine ⟨?_, ?_, ?_, ?_⟩
        · show chainSeg ((setPrev (setNext l.heap p (some b)) b (some p)).set i none)
            none l.head ((A' ++ [(p, wp)]) ++ (b, wb) :: B') l.tail none
          have hS1 : chainSeg ((setPrev (setNext l.heap p (some b)) b (some p)).set i none)
              none l.head A' qA2 rA2 := by
            refine chainSeg_frame ?_ hsegA1
            intro iv hm
            have hmA' : iv.1 ∈ A'.map Prod.fst := List.mem_map_of_mem _ hm
            have hne_i : iv.1 ≠ i := by
              intro hc
              refine hi_notA ?_
              rw [← hc, List.map_append]
              exact List.mem_append_left _ hmA'
            have hne_p : iv.1 ≠ p := by
              intro hc
              exact hp_notA' (hc ▸ hmA')
            have hne_b : iv.1 ≠ b := by
              intro hc
              refine (disj (a := iv.1) ?_) ?_
              · rw [List.map_append]
                exact List.mem_append_left _ hmA'
              · rw [hc]
                simp
            rw [heapGet_set_none_ne _ _ hne_i, heapGet_setPrev_ne _ _ _ hne_b,
              heapGet_setNext_ne _ _ _ hne_p]
          have hS2 : chainSeg ((setPrev (setNext l.heap p (some b)) b (some p)).set i none)
              qA2 rA2 [(p, wp)] (some p) (some b) := by
            rw [chainSeg_cons]
            refine ⟨hrA2, { np with next := some b }, ?_, hvp, hpp, rfl, rfl⟩
            rw [heapGet_set_none_ne _ _ hp_ne_i, heapGet_setPrev_ne _ _ _ hp_ne_b]
            exact heapGet_setNext_self _ hnp
          have hS3 : chainSeg ((setPrev (setNext l.heap p (some b)) b (some p)).set i none)
              (some p) (some b) ((b, wb) :: B') l.tail none := by
            rw [chainSeg_cons]
            refine ⟨rfl, { nb with prev := some p }, ?_, hvb, rfl, ?_⟩
            · rw [heapGet_set_none_ne _ _ hb_ne_i]
              refine heapGet_setPrev_self _ ?_
              rw [heapGet_setNext_ne _ _ _ (Ne.symm hp_ne_b)]
              exact hnb
            · show chainSeg _ (some b) nb.next B' l.tail none
              refine chainSeg_frame ?_ hsegB'
              intro iv hm
              have hmB' : iv.1 ∈ B'.map Prod.fst := List.mem_map_of_mem _ hm
              have hne_i : iv.1 ≠ i := by
                intro hc
                refine hi_notB ?_
                rw [← hc]
                simp [hmB']
              have hne_b : iv.1 ≠ b := by
                intro hc
                exact hb_notB'.1 (hc ▸ hmB')
              have hne_p : iv.1 ≠ p := by
                intro hc
                refine (disj hp_memA) ?_
                rw [← hc]
                simp [hmB']
              rw [heapGet_set_none_ne _ _ hne_i, heapGet_setPrev_ne _ _ _ hne_b,
                heapGet_setNext_ne _ _ _ hne_p]
          exact chainSeg_append (chainSeg_append hS1 hS2) hS3
        · show l.length - 1 = _
          simp only [List.length_append, List.length_cons, List.length_nil] at hlenx ⊢
          omega
        · rw [List.map_append, List.nodup_append]
          refine ⟨ndA, ndB, ?_⟩
          intro a ha hb
          exact (disj ha) (List.mem_cons_of_mem _ hb)
        · intro k
          rcases Decidable.em (k = i) with rfl | hk
          · show (heapGet ((setPrev (setNext l.heap p (some b)) b (some p)).set k none)
              k).isSome ↔ _
            rw [heapGet_set_none_self]
            constructor
            · intro hc
              simp at hc
            · intro hc
              exact absurd hc (not_mem_map_fst_removed hi_notA hi_notB)
          · show (heapGet ((setPrev (setNext l.heap p (some b)) b (some p)).set i none)
              k).isSome ↔ _
            rw [heapGet_set_none_ne _ _ hk, isSome_heapGet_setPrev,
              isSome_heapGet_setNext, dom k]
            exact mem_map_fst_middle hk
      · rw [hunlink]
        show heapGet (setPrev (setNext l.heap p (some b)) b (some p)) i = some n
        rw [heapGet_setPrev_ne _ _ _ (Ne.symm hb_ne_i),
          heapGet_setNext_ne _ _ _ (Ne.symm hp_ne_i)]
        exact hget
      · intro k hk
        rw [hprev] at hk
        injection hk with hk
        subst hk
        exact hp_ne_i
      · intro k hk
        rw [hnext] at hk
        injection hk with hk
        subst hk
        exact hb_ne_i

/-! ### Dispatching `insert`, preservation along runs, observation bridges -/

theorem insert_zero_aux {T : Type} (l : DoubleLinkedList T) (v : T) :
    l.insert v 0 = some (l.add v) := rfl

theorem add_eq_append_of_empty {T : Type} {l : DoubleLinkedList T} (v : T)
    (hhead : l.head = none) (htail : l.tail = none) : l.add v = l.append v := by
  simp only [DoubleLinkedList.add, DoubleLinkedList.append, hhead, htail]

theorem insert_ge_eq_append {T : Type} {l : DoubleLinkedList T} {xs : List (Nat × T)}
    (hwf : WF l xs) (v : T) {idx : Nat} (h : l.length ≤ idx) :
    l.insert v idx = some (l.append v) := by
  rcases Decidable.em (idx = 0) with rfl | hne
  · have hlen0 : l.length = 0 := by omega
    have hxs : xs = [] := by
      have hl := hwf.len
      rw [hlen0] at hl
      exact List.eq_nil_of_length_eq_zero hl.symm
    have seg := hwf.seg
    rw [hxs] at seg
    obtain ⟨htail, hhead⟩ := seg
    rw [insert_zero_aux, add_eq_append_of_empty v hhead.symm htail]
  · unfold DoubleLinkedList.insert
    rw [if_neg hne, if_pos h]

theorem insert_cases {T : Type} {l : DoubleLinkedList T} {xs : List (Nat × T)}
    (hwf : WF l xs) (v : T) (idx : Nat) :
    ∃ l' xs', l.insert v idx = some l' ∧ WF l' xs' ∧ xs'.length = xs.length + 1 := by
  rcases Decidable.em (idx = 0) with rfl | hne
  · exact ⟨l.add v, _, insert_zero_aux l v, wf_add hwf v, by simp⟩
  · rcases Decidable.em (l.length ≤ idx) with hge | hlt
    · exact ⟨l.append v, _, insert_ge_eq_append hwf v hge, wf_append hwf v, by simp⟩
    · obtain ⟨l', hins, hwf'⟩ := @insert_mid T l xs hwf v idx (by omega) (by omega)
      refine ⟨l', _, hins, hwf', ?_⟩
      rw [List.length_append, List.length_cons, List.length_take, List.length_drop]
      have hx : idx < xs.length := by
        have := hwf.len
        omega
      omega

theorem wf_step {T : Type} [DecidableEq T] {l : DoubleLinkedList T}
    {xs : List (Nat × T)} (hwf : WF l xs) (op : Op T) :
    ∃ xs', WF (step l op) xs' := by
  cases op with
  | add v => exact ⟨_, wf_add hwf v⟩
  | append v => exact ⟨_, wf_append hwf v⟩
  | insert v idx =>
      obtain ⟨l', xs', hins, hwf', -⟩ := insert_cases hwf v idx
      show ∃ xs', WF ((l.insert v idx).getD l) xs'
      rw [hins]
      exact ⟨xs', hwf'⟩
  | remove v =>
      rcases Decidable.em (v ∈ xs.map Prod.snd) with hv | hv
      · obtain ⟨A, i, n, B, hxs, hA, hfind, hget, hval, hrem, hwf', -⟩ :=
          remove_present hwf hv
        show ∃ xs', WF (l.remove v).2 xs'
        rw [hrem]
        exact ⟨A ++ B, hwf'⟩
      · show ∃ xs', WF (l.remove v).2 xs'
        rw [remove_absent hwf hv]
        exact ⟨xs, hwf⟩

theorem wf_runFrom {T : Type} [DecidableEq T] (ops : List (Op T)) :
    ∀ {l : DoubleLinkedList T} {xs}, WF l xs → ∃ xs', WF (ops.foldl step l) xs' := by
  induction ops with
  | nil => intro l xs h; exact ⟨xs, h⟩
  | cons op ops ih =>
      intro l xs h
      obtain ⟨xs', h'⟩ := wf_step h op
      exact ih h'

theorem reachable_wf {T : Type} [DecidableEq T] {l : DoubleLinkedList T}
    (h : Reachable l) : ∃ xs, WF l xs := by
  obtain ⟨ops, rfl⟩ := h
  exact wf_runFrom ops (wf_new T)

theorem toList_eq {T : Type} {l : DoubleLinkedList T} {xs : List (Nat × T)}
    (hwf : WF l xs) : l.toList = xs.map Prod.snd :=
  traverseVals_of_chainSeg hwf.seg hwf.len.ge

theorem search_iff {T : Type} [DecidableEq T] {l : DoubleLinkedList T}
    {xs : List (Nat × T)} (hwf : WF l xs) (v : T) :
    l.search v = true ↔ v ∈ xs.map Prod.snd := by
  unfold DoubleLinkedList.search
  constructor
  · intro hs
    by_contra hv
    rw [findNode_not_mem hwf.seg hwf.len.ge hv] at hs
    simp at hs
  · intro hv
    obtain ⟨A, i, n, B, hxs, hA, hfind, -⟩ := findNode_first hwf.seg hwf.len.ge hv
    rw [hfind]
    rfl

theorem insertIdx_eq_take_cons_drop {α : Type} :
    ∀ (n : Nat) (a : α) (l : List α), n ≤ l.length →
      l.insertIdx n a = l.take n ++ a :: l.drop n := by
  intro n
  induction n with
  | zero =>
      intro a l _
      simp
  | succ n ih =>
      intro a l hl
      cases l with
      | nil => simp at hl
      | cons x l =>
          rw [List.insertIdx_succ_cons, ih a l (by simpa using hl)]
          rfl

theorem indexOf_append_first {α : Type} [DecidableEq α] :
    ∀ (A : List α) (B : List α) (v : α), v ∉ A →
      (A ++ v :: B).indexOf v = A.length := by
  intro A
  induction A with
  | nil =>
      intro B v _
      rw [List.nil_append, List.indexOf_cons_self]
      rfl
  | cons a A ih =>
      intro B v hv
      have ha : a ≠ v := by
        intro hc
        exact hv (by simp [hc])
      rw [List.cons_append, List.indexOf_cons_ne _ ha, ih B v (fun hc => hv (by simp [hc]))]
      rfl

/-! ### The claims -/

/-- Claim C1: on every list reachable by any sequence of public operations, the
structural invariant holds: following `next` from `head` exactly `length` times
exhausts the list, and `length - 1` steps land on the `tail` node; the head
node's `prev` and the tail node's `next` are absent; and `length = 0` exactly
when `head` and `tail` are both absent. -/
theorem c1_structural_invariant {T : Type} [DecidableEq T] (l : DoubleLinkedList T)
    (hreach : Reachable l) :
    nthNode l.heap l.head l.length = none ∧
    (0 < l.length → ∃ t, l.tail = some t ∧
      (nthNode l.heap l.head (l.length - 1)).map Prod.fst = some t) ∧
    (∀ i n, l.head = some i → heapGet l.heap i = some n → n.prev = none) ∧
    (∀ i n, l.tail = some i → heapGet l.heap i = some n → n.next = none) ∧
    (l.length = 0 ↔ l.head = none ∧ l.tail = none) := by
  obtain ⟨xs, hwf⟩ := reachable_wf hreach
  refine ⟨?_, ?_, ?_, ?_, ?_⟩
  · have h1 := nthNode_of_chainSeg hwf.seg
    rw [← hwf.len] at h1
    rw [h1, nthNode_none]
  · intro hpos
    obtain ⟨ys, iv, hconcat⟩ : ∃ ys iv, xs = ys ++ [iv] := by
      rcases List.eq_nil_or_concat xs with h | ⟨ys, iv, hc⟩
      · rw [hwf.len, h] at hpos
        simp at hpos
      · exact ⟨ys, iv, by rw [hc, List.concat_eq_append]⟩
    have seg := hwf.seg
    rw [hconcat] at seg
    have htail : l.tail = some iv.1 := chainSeg_concat_last seg
    refine ⟨iv.1, htail, ?_⟩
    obtain ⟨q, r, hseg1, hseg2⟩ := chainSeg_split seg
    have h1 := nthNode_of_chainSeg hseg1
    have hlen1 : l.length - 1 = ys.length := by
      have hl := hwf.len
      rw [hconcat] at hl
      simp at hl
      omega
    rw [hlen1, h1]
    obtain ⟨i1, v1⟩ := iv
    rw [chainSeg_cons] at hseg2
    obtain ⟨hr, m, hm, -, -, -⟩ := hseg2
    rw [hr]
    show ((heapGet l.heap i1).map fun n => (i1, n)).map Prod.fst = some i1
    rw [hm]
    rfl
  · intro i n hhead hcell
    cases xs with
    | nil =>
        obtain ⟨-, hr⟩ := hwf.seg
        rw [hhead] at hr
        cases hr
    | cons jw rest =>
        obtain ⟨j, w⟩ := jw
        have hj := chainSeg_head_some hwf.seg
        rw [hhead] at hj
        obtain rfl : i = j := by cases hj; rfl
        have seg := hwf.seg
        rw [chainSeg_cons] at seg
        obtain ⟨-, m, hm, -, hprev, -⟩ := seg
        rw [hcell] at hm
        injection hm with hm
        rw [hm]
        exact hprev
  · intro i n htail hcell
    rcases List.eq_nil_or_concat xs with rfl | ⟨ys, iv, hconcat⟩
    · obtain ⟨hq, -⟩ := hwf.seg
      rw [htail] at hq
      cases hq
    · rw [List.concat_eq_append] at hconcat
      have seg := hwf.seg
      rw [hconcat] at seg
      have hlast := chainSeg_concat_last seg
      rw [htail] at hlast
      obtain ⟨i1, w1⟩ := iv
      obtain rfl : i = i1 := by cases hlast; rfl
      obtain ⟨q, r, hseg1, hseg2⟩ := chainSeg_split seg
      rw [chainSeg_cons] at hseg2
      obtain ⟨hr, m, hm, -, -, -, hr'⟩ := hseg2
      rw [hcell] at hm
      injection hm with hm
      rw [hm]
      exact hr'.symm
  · constructor
    · intro h0
      have hxs : xs = [] := by
        rw [hwf.len] at h0
        exact List.eq_nil_of_length_eq_zero h0
      have seg := hwf.seg
      rw [hxs] at seg
      obtain ⟨htl, hhd⟩ := seg
      exact ⟨hhd.symm, htl⟩
    · rintro ⟨hhd, htl⟩
      have seg := hwf.seg
      rw [hhd] at seg
      have hxs := chainSeg_nil_of_cur_none seg
      rw [hwf.len, hxs]
      rfl

/-- Witness for C1 at the concrete run `append 1; append 2`. -/
theorem c1_structural_invariant_witness :
    nthNode (runOps [Op.append (1 : Nat), Op.append 2]).heap
        (runOps [Op.append (1 : Nat), Op.append 2]).head
        (runOps [Op.append (1 : Nat), Op.append 2]).length = none ∧
    (0 < (runOps [Op.append (1 : Nat), Op.append 2]).length → ∃ t,
      (runOps [Op.append (1 : Nat), Op.append 2]).tail = some t ∧
      (nthNode (runOps [Op.append (1 : Nat), Op.append 2]).heap
        (runOps [Op.append (1 : Nat), Op.append 2]).head
        ((runOps [Op.append (1 : Nat), Op.append 2]).length - 1)).map Prod.fst = some t) ∧
    (∀ i n, (runOps [Op.append (1 : Nat), Op.append 2]).head = some i →
      heapGet (runOps [Op.append (1 : Nat), Op.append 2]).heap i = some n →
      n.prev = none) ∧
    (∀ i n, (runOps [Op.append (1 : Nat), Op.append 2]).tail = some i →
      heapGet (runOps [Op.append (1 : Nat), Op.append 2]).heap i = some n →
      n.next = none) ∧
    ((runOps [Op.append (1 : Nat), Op.append 2]).length = 0 ↔
      (runOps [Op.append (1 : Nat), Op.append 2]).head = none ∧
      (runOps [Op.append (1 : Nat), Op.append 2]).tail = none) :=
  c1_structural_invariant _ ⟨[Op.append 1, Op.append 2], rfl⟩

/-- Claim C4: removing an absent value returns no value and leaves the list
state literally unchanged. -/
theorem c4_remove_absent {T : Type} [DecidableEq T] (l : DoubleLinkedList T) (v : T)
    (hreach : Reachable l) (hv : v ∉ l.toList) :
    l.remove v = (none, l) := by
  obtain ⟨xs, hwf⟩ := reachable_wf hreach
  rw [toList_eq hwf] at hv
  exact remove_absent hwf hv

/-- Witness for C4: removing 5 from the list [1, 2]. -/
theorem c4_remove_absent_witness :
    (runOps [Op.append (1 : Nat), Op.append 2]).remove 5 =
      (none, runOps [Op.append (1 : Nat), Op.append 2]) :=
  c4_remove_absent _ 5 ⟨[Op.append 1, Op.append 2], rfl⟩ (by decide)

/-- Claim C5: `insert(v, 0)` produces exactly the same resulting list as
`add(v)`, on every list state. -/
theorem c5_insert_zero_eq_add {T : Type} (l : DoubleLinkedList T) (v : T) :
    l.insert v 0 = some (l.add v) := rfl

/-- Claim C6: `insert(v, idx)` for `idx ≥ length()` produces exactly the same
resulting list as `append(v)`; no out-of-range failure occurs. -/
theorem c6_insert_ge_eq_append {T : Type} [DecidableEq T] (l : DoubleLinkedList T)
    (v : T) (idx : Nat) (hreach : Reachable l) (hge : l.length ≤ idx) :
    l.insert v idx = some (l.append v) := by
  obtain ⟨xs, hwf⟩ := reachable_wf hreach
  exact insert_ge_eq_append hwf v hge

/-- Witness for C6: inserting at index 5 in the list [1, 2]. -/
theorem c6_insert_ge_eq_append_witness :
    (runOps [Op.append (1 : Nat), Op.append 2]).insert 7 5 =
      some ((runOps [Op.append (1 : Nat), Op.append 2]).append 7) :=
  c6_insert_ge_eq_append _ 7 5 ⟨[Op.append 1, Op.append 2], rfl⟩ (by decide)

/-- Claim C10: `insert` succeeds on every reachable list and every index, and
increases `length()` by exactly 1. -/
theorem c10_insert_length {T : Type} [DecidableEq T] (l : DoubleLinkedList T)
    (v : T) (idx : Nat) (hreach : Reachable l) :
    ∃ l', l.insert v idx = some l' ∧ l'.length = l.length + 1 := by
  obtain ⟨xs, hwf⟩ := reachable_wf hreach
  obtain ⟨l', xs', hins, hwf', hlen⟩ := insert_cases hwf v idx
  refine ⟨l', hins, ?_⟩
  rw [hwf'.len, hlen, ← hwf.len]

/-- Witness for C10: inserting in the middle of the list [1, 2, 3]. -/
theorem c10_insert_length_witness :
    ∃ l', (runOps [Op.append (1 : Nat), Op.append 2, Op.append 3]).insert 9 2 = some l' ∧
      l'.length = (runOps [Op.append (1 : Nat), Op.append 2, Op.append 3]).length + 1 :=
  c10_insert_length _ 9 2 ⟨[Op.append 1, Op.append 2, Op.append 3], rfl⟩

/-- Claim C2: removing a present value `v` unlinks the first matching node,
returns the removed value, decreases `length()` by exactly 1, leaves the
traversal equal to the old one with the first `v` erased; afterwards
`search(v)` is false when `v` occurred exactly once, and removing the sole
element of a one-element list empties both `head` and `tail`. -/
theorem c2_remove_present {T : Type} [DecidableEq T] (l : DoubleLinkedList T) (v : T)
    (hreach : Reachable l) (hv : v ∈ l.toList) :
    (l.remove v).1 = some v ∧
    (l.remove v).2.length + 1 = l.length ∧
    (l.remove v).2.toList = l.toList.erase v ∧
    (l.toList.count v = 1 → (l.remove v).2.search v = false) ∧
    (l.length = 1 → (l.remove v).2.head = none ∧ (l.remove v).2.tail = none) := by
  obtain ⟨xs, hwf⟩ := reachable_wf hreach
  rw [toList_eq hwf] at hv
  obtain ⟨A, i, n, B, hxs, hA, hfind, hget, hval, hrem, hwf', hgeti, hpne, hnne⟩ :=
    remove_present hwf hv
  rw [hrem]
  subst hxs
  refine ⟨rfl, ?_, ?_, ?_, ?_⟩
  · show ((l.unlink n).free i).length + 1 = l.length
    rw [hwf'.len, hwf.len]
    simp
    omega
  · show ((l.unlink n).free i).toList = l.toList.erase v
    rw [toList_eq hwf', toList_eq hwf]
    rw [List.map_append, List.map_append, List.map_cons]
    rw [List.erase_append_right _ hA, List.erase_cons_head]
  · intro hcount
    rw [toList_eq hwf, List.map_append, List.map_cons, List.count_append,
      List.count_cons_self] at hcount
    have hnotmem : v ∉ (A ++ B).map Prod.snd := by
      rw [List.map_append]
      intro hc
      rcases List.mem_append.mp hc with h | h
      · exact hA h
      · have hz : (List.map Prod.snd B).count v = 0 := by omega
        exact (List.count_eq_zero.mp hz) h
    have hs := search_iff hwf' v
    show ((l.unlink n).free i).search v = false
    cases hbool : ((l.unlink n).free i).search v with
    | false => rfl
    | true => exact absurd (hs.mp hbool) hnotmem
  · intro hlen1
    have hlAB : A.length = 0 ∧ B.length = 0 := by
      have h2 := hwf.len
      rw [hlen1] at h2
      simp at h2
      omega
    obtain rfl : A = [] := List.eq_nil_of_length_eq_zero hlAB.1
    obtain rfl : B = [] := List.eq_nil_of_length_eq_zero hlAB.2
    obtain ⟨htl, hhd⟩ := hwf'.seg
    exact ⟨hhd.symm, htl⟩

/-- Witness for C2: removing 2 from the list [1, 2, 3]. -/
theorem c2_remove_present_witness :
    ((runOps [Op.append (1 : Nat), Op.append 2, Op.append 3]).remove 2).1 = some 2 ∧
    ((runOps [Op.append (1 : Nat), Op.append 2, Op.append 3]).remove 2).2.length + 1 =
      (runOps [Op.append (1 : Nat), Op.append 2, Op.append 3]).length ∧
    ((runOps [Op.append (1 : Nat), Op.append 2, Op.append 3]).remove 2).2.toList =
      (runOps [Op.append (1 : Nat), Op.append 2, Op.append 3]).toList.erase 2 ∧
    ((runOps [Op.append (1 : Nat), Op.append 2, Op.append 3]).toList.count 2 = 1 →
      ((runOps [Op.append (1 : Nat), Op.append 2, Op.append 3]).remove 2).2.search 2 =
        false) ∧
    ((runOps [Op.append (1 : Nat), Op.append 2, Op.append 3]).length = 1 →
      ((runOps [Op.append (1 : Nat), Op.append 2, Op.append 3]).remove 2).2.head = none ∧
      ((runOps [Op.append (1 : Nat), Op.append 2, Op.append 3]).remove 2).2.tail = none) :=
  c2_remove_present _ 2 ⟨[Op.append 1, Op.append 2, Op.append 3], rfl⟩ (by decide)

/-- Claim C3: for `0 < idx < length`, `insert(v, idx)` splices the new value at
position `idx`: the forward traversal becomes the old one with `v` inserted at
`idx`, and the backward traversal from `tail` is the exact reverse of the
forward one, so both link directions are correctly relinked. -/
theorem c3_insert_middle {T : Type} [DecidableEq T] (l : DoubleLinkedList T) (v : T)
    (idx : Nat) (hreach : Reachable l) (h0 : 0 < idx) (hlen : idx < l.length) :
    ∃ l', l.insert v idx = some l' ∧
      l'.toList = l.toList.insertIdx idx v ∧
      traverseBack l'.heap l'.tail l'.length = l'.toList.reverse := by
  obtain ⟨xs, hwf⟩ := reachable_wf hreach
  obtain ⟨l', hins, hwf'⟩ := @insert_mid T l xs hwf v idx h0 hlen
  refine ⟨l', hins, ?_, ?_⟩
  · rw [toList_eq hwf', toList_eq hwf]
    rw [List.map_append, List.map_cons, List.map_take, List.map_drop]
    rw [insertIdx_eq_take_cons_drop idx v _ (by rw [List.length_map, ← hwf.len]; omega)]
  · have hb := traverseBack_of_chainSeg hwf'.seg hwf'.len.ge
    rw [traverseBack_none, List.append_nil] at hb
    rw [hb, toList_eq hwf']

/-- Witness for C3: inserting 9 at index 1 of the list [1, 2, 3]. -/
theorem c3_insert_middle_witness :
    ∃ l', (runOps [Op.append (1 : Nat), Op.append 2, Op.append 3]).insert 9 1 = some l' ∧
      l'.toList = (runOps [Op.append (1 : Nat), Op.append 2, Op.append 3]).toList.insertIdx 1 9 ∧
      traverseBack l'.heap l'.tail l'.length = l'.toList.reverse :=
  c3_insert_middle _ 9 1 ⟨[Op.append 1, Op.append 2, Op.append 3], rfl⟩ (by decide)
    (by decide)

/-- Claim C7: `search(v)` is true exactly when some node's value equals `v`; it
is false on an empty list; and the traversal is head-to-tail stopping at the
first equal node: the node `search` inspects last is the one at position
`indexOf v` of the forward traversal. -/
theorem c7_search {T : Type} [DecidableEq T] (l : DoubleLinkedList T) (v : T)
    (hreach : Reachable l) :
    (l.search v = true ↔ v ∈ l.toList) ∧
    (l.length = 0 → l.search v = false) ∧
    findNode l.heap v l.head l.length = nthNode l.heap l.head (l.toList.indexOf v) := by
  obtain ⟨xs, hwf⟩ := reachable_wf hreach
  refine ⟨by rw [toList_eq hwf]; exact search_iff hwf v, ?_, ?_⟩
  · intro h0
    unfold DoubleLinkedList.search
    rw [h0]
    cases l.head <;> rfl
  · rcases Decidable.em (v ∈ xs.map Prod.snd) with hv | hv
    · obtain ⟨A, i, n, B, hxs, hA, hfind, hget, hval⟩ :=
        findNode_first hwf.seg hwf.len.ge hv
      rw [hfind, toList_eq hwf, hxs]
      rw [List.map_append, List.map_cons, indexOf_append_first _ _ _ hA, List.length_map]
      have seg := hwf.seg
      rw [hxs] at seg
      obtain ⟨q, r, hseg1, hseg2⟩ := chainSeg_split seg
      have h1 := nthNode_of_chainSeg hseg1
      rw [h1]
      rw [chainSeg_cons] at hseg2
      obtain ⟨hr, m, hm, -, -, -⟩ := hseg2
      rw [hr]
      show some (i, n) = (heapGet l.heap i).map fun q => (i, q)
      rw [hget]
      rfl
    · rw [findNode_not_mem hwf.seg hwf.len.ge hv, toList_eq hwf]
      rw [List.indexOf_eq_length.mpr hv, List.length_map]
      have h1 := nthNode_of_chainSeg hwf.seg
      rw [h1, nthNode_none]

/-- Witness for C7 on the list [1, 2] and value 2. -/
theorem c7_search_witness :
    ((runOps [Op.append (1 : Nat), Op.append 2]).search 2 = true ↔
      (2 : Nat) ∈ (runOps [Op.append (1 : Nat), Op.append 2]).toList) ∧
    ((runOps [Op.append (1 : Nat), Op.append 2]).length = 0 →
      (runOps [Op.append (1 : Nat), Op.append 2]).search 2 = false) ∧
    findNode (runOps [Op.append (1 : Nat), Op.append 2]).heap 2
        (runOps [Op.append (1 : Nat), Op.append 2]).head
        (runOps [Op.append (1 : Nat), Op.append 2]).length =
      nthNode (runOps [Op.append (1 : Nat), Op.append 2]).heap
        (runOps [Op.append (1 : Nat), Op.append 2]).head
        ((runOps [Op.append (1 : Nat), Op.append 2]).toList.indexOf 2) :=
  c7_search _ 2 ⟨[Op.append 1, Op.append 2], rfl⟩

theorem appendAll_wf {T : Type} [DecidableEq T] :
    ∀ (vs : List T) (l : DoubleLinkedList T) (xs : List (Nat × T)), WF l xs →
      ∃ xs', WF (List.foldl step l (vs.map Op.append)) xs' ∧
        xs'.map Prod.snd = xs.map Prod.snd ++ vs := by
  intro vs
  induction vs with
  | nil =>
      intro l xs h
      exact ⟨xs, h, by simp⟩
  | cons v vs ih =>
      intro l xs h
      obtain ⟨xs', h', hmap⟩ := ih (l.append v) (xs ++ [(l.heap.length, v)]) (wf_append h v)
      refine ⟨xs', h', ?_⟩
      rw [hmap, List.map_append]
      simp

/-- Claim C8: after any sequence of `append` calls starting from `new()`,
`length()` equals the number of calls and the full forward traversal yields the
appended values in call order. -/
theorem c8_append_sequence {T : Type} [DecidableEq T] (vs : List T) :
    (runOps (vs.map Op.append)).length = vs.length ∧
    (runOps (vs.map Op.append)).toList = vs := by
  obtain ⟨xs', hwf', hmap⟩ := appendAll_wf vs (DoubleLinkedList.new T) [] (wf_new T)
  have hlen2 : xs'.length = vs.length := by
    have hc := congrArg List.length hmap
    simpa using hc
  constructor
  · show ((vs.map Op.append).foldl step (DoubleLinkedList.new T)).length = vs.length
    rw [hwf'.len, hlen2]
  · show ((vs.map Op.append).foldl step (DoubleLinkedList.new T)).toList = vs
    rw [toList_eq hwf', hmap]
    simp

/-- Claim C9: the panic branches are unreachable on reachable lists: the
`expect` in `insert` cannot fire when `0 < idx < length` (the located node
exists, so `insert` yields a result), and after `remove` unlinks the found
node no `Rc` in the structure still references it, so the forced
`Rc::try_unwrap(..).ok().unwrap()` cannot fire. -/
theorem c9_no_panic {T : Type} [DecidableEq T] (l : DoubleLinkedList T) (v : T)
    (idx : Nat) (hreach : Reachable l) :
    (0 < idx → idx < l.length → (l.insert v idx).isSome) ∧
    (∀ i n, findNode l.heap v l.head l.length = some (i, n) →
      ¬ (l.unlink n).refsTo i) := by
  obtain ⟨xs, hwf⟩ := reachable_wf hreach
  constructor
  · intro h0 hlen
    obtain ⟨l', hins, -⟩ := @insert_mid T l xs hwf v idx h0 hlen
    rw [hins]
    rfl
  · intro i n hfind
    have hv : v ∈ xs.map Prod.snd := by
      by_contra hv
      rw [findNode_not_mem hwf.seg hwf.len.ge hv] at hfind
      cases hfind
    obtain ⟨A, i0, n0, B, hxs, hA, hfind0, hget0, hval0, hrem, hwf', hgeti, hpne, hnne⟩ :=
      remove_present hwf hv
    rw [hfind0] at hfind
    injection hfind with hfind
    injection hfind with h1 h2
    subst h1
    subst h2
    have hnotin : i0 ∉ (A ++ B).map Prod.fst := by
      have nodup := hwf.nodup
      rw [hxs, List.map_append, List.map_cons, List.nodup_middle, List.nodup_cons,
        ← List.map_append] at nodup
      exact nodup.1
    intro hrefs
    rcases hrefs with hh | ht | ⟨j, m, hm, hpm⟩
    · exact hnotin (hwf'.head_mem hh)
    · exact hnotin (hwf'.tail_mem ht)
    · rcases Decidable.em (j = i0) with rfl | hj
      · rw [hgeti] at hm
        injection hm with hm
        subst hm
        rcases hpm with hp | hn2
        · exact (hpne j hp) rfl
        · exact (hnne j hn2) rfl
      · have hm' : heapGet ((l.unlink n0).free i0).heap j = some m := by
          show heapGet ((l.unlink n0).heap.set i0 none) j = some m
          rw [heapGet_set_none_ne _ _ hj]
          exact hm
        have hjmem : j ∈ (A ++ B).map Prod.fst := (hwf'.dom j).mp (by rw [hm']; rfl)
        obtain ⟨iv, hiv, hivj⟩ := List.mem_map.mp hjmem
        have hclosed := chainSeg_closed hwf'.seg iv hiv m (by rw [hivj]; exact hm')
        rcases hpm with hp | hn2
        · rcases hclosed.2 with h | ⟨k, hk, hkm⟩
          · rw [hp] at h
            cases h
          · rw [hp] at hk
            injection hk with hk
            subst hk
            exact hnotin hkm
        · rcases hclosed.1 with h | ⟨k, hk, hkm⟩
          · rw [hn2] at h
            cases h
          · rw [hn2] at hk
            injection hk with hk
            subst hk
            exact hnotin hkm

/-- Witness for C9 on the list [1, 2, 3], value 2, index 1. -/
theorem c9_no_panic_witness :
    (0 < 1 → 1 < (runOps [Op.append (1 : Nat), Op.append 2, Op.append 3]).length →
      ((runOps [Op.append (1 : Nat), Op.append 2, Op.append 3]).insert 2 1).isSome) ∧
    (∀ i n, findNode (runOps [Op.append (1 : Nat), Op.append 2, Op.append 3]).heap 2
        (runOps [Op.append (1 : Nat), Op.append 2, Op.append 3]).head
        (runOps [Op.append (1 : Nat), Op.append 2, Op.append 3]).length = some (i, n) →
      ¬ ((runOps [Op.append (1 : Nat), Op.append 2, Op.append 3]).unlink n).refsTo i) :=
  c9_no_panic _ 2 1 ⟨[Op.append 1, Op.append 2, Op.append 3], rfl⟩
